import Mathlib

set_option maxHeartbeats 1000000
set_option maxRecDepth 8000

/-! Verification of the Antigravity Skill Manager (src/antigravity_skills/cli.py).

Strings are modelled as lists of characters.  File contents are passed in and
returned explicitly, following the pure-document refactoring described in the
specification's design notes (section 9): each stateful operation of the CLI
becomes a pure function from the old document to the new one.  Regular
expressions in the source are used only in the fixed shapes
START-MARKER .*? END-MARKER (optionally followed by a greedy whitespace run)
and a run of three-or-more newlines; both are modelled directly as scanning
functions.  Replacement strings are modelled literally (the source never puts
backslashes into a replacement in the scenarios considered). -/

/-- Characters Python treats as whitespace for str.strip and for the regex
class of whitespace: ASCII whitespace, the control separators x1c-x1f, and
the Unicode space characters. -/
def isPySpace (c : Char) : Bool :=
  c == ' ' || c == '\t' || c == '\n' || c == '\x0b' || c == '\x0c' || c == '\r' ||
  c == '\x1c' || c == '\x1d' || c == '\x1e' || c == '\x1f' || c == '\x85' || c == '\xa0' ||
  c == ' ' || c == ' ' || c == ' ' || c == ' ' || c == ' ' ||
  c == ' ' || c == ' ' || c == ' ' || c == ' ' || c == ' ' ||
  c == ' ' || c == ' ' || c == ' ' || c == ' ' || c == ' ' ||
  c == ' ' || c == '　'

/-- Python str.lstrip with default argument. -/
def pyLStrip (s : List Char) : List Char := s.dropWhile isPySpace

/-- Python str.rstrip with default argument. -/
def pyRStrip (s : List Char) : List Char := (s.reverse.dropWhile isPySpace).reverse

/-- Python str.strip with default argument. -/
def pyStrip (s : List Char) : List Char := pyRStrip (pyLStrip s)

/-- Locate the first (leftmost) occurrence of the pattern, returning the text
before it and the text after it.  This is the search primitive underlying
Python's substring test, str.split, str.replace and the regex searches used
by the source (whose patterns are all literal apart from the block bodies). -/
def splitFirst (pat : List Char) : List Char → Option (List Char × List Char)
  | [] => if pat.isEmpty then some ([], []) else none
  | c :: rest =>
    if pat.isPrefixOf (c :: rest) then some ([], (c :: rest).drop pat.length)
    else
      match splitFirst pat rest with
      | some (pre, post) => some (c :: pre, post)
      | none => none

/-- Python's substring containment test (the in operator on str). -/
def occursB (pat s : List Char) : Bool := (splitFirst pat s).isSome

/-- Propositional form of substring containment. -/
def Occurs (pat s : List Char) : Prop := ∃ l r, s = l ++ pat ++ r

/-- Leftmost match of the regex  sm .*? em  with DOTALL: the first occurrence
of sm, then the first occurrence of em after it.  Returns the text before the
match, the text strictly between the two markers, and the text after. -/
def findMatch (sm em s : List Char) : Option (List Char × List Char × List Char) :=
  match splitFirst sm s with
  | none => none
  | some (pre, rest) =>
    match splitFirst em rest with
    | none => none
    | some (mid, post) => some (pre, mid, post)

/-- re.sub for the pattern  sm .*? em  (with a trailing greedy whitespace run
when eatWS is true): replace every non-overlapping match, scanning from the
left.  The fuel argument bounds the number of replacements; each match
consumes at least the nonempty start marker, so an initial fuel of the
string's length is always sufficient. -/
def subAllAux (sm em repl : List Char) (eatWS : Bool) : Nat → List Char → List Char
  | 0, s => s
  | fuel + 1, s =>
    match findMatch sm em s with
    | none => s
    | some (pre, _, post) =>
      let post1 := if eatWS then post.dropWhile isPySpace else post
      pre ++ repl ++ subAllAux sm em repl eatWS fuel post1

/-- Item of a parsed re.sub string-replacement template: a literal character,
or a reference to group 0 (the whole match; the upsert pattern has no other
groups, so every other group reference is an error). -/
inductive TItem where
  | lit : Char → TItem
  | group0 : TItem

/-- Octal digit test used by re's template parser. -/
def isOctDigit (c : Char) : Bool := 48 ≤ c.toNat && c.toNat ≤ 55

/-- The escapes re's template parser maps to single characters
(a, b, f, n, r, t, v). -/
def escMap (e : Char) : Option Char :=
  if e = 'a' then some (Char.ofNat 7)
  else if e = 'b' then some (Char.ofNat 8)
  else if e = 'f' then some (Char.ofNat 12)
  else if e = 'n' then some '\n'
  else if e = 'r' then some (Char.ofNat 13)
  else if e = 't' then some (Char.ofNat 9)
  else if e = 'v' then some (Char.ofNat 11)
  else none

/-- Python re's parse_template for a pattern with zero capture groups, as run
by pattern.sub on a string replacement: a backslash introduces an escape;
a bare trailing backslash, an unknown ASCII-letter escape, a group reference
other than 0, and a malformed or unknown g-named group are re.error (none);
octal escapes give the character with that code; an unknown non-letter escape
keeps the backslash and the character. -/
def parseTemplateAux : Nat → List Char → Option (List TItem)
  | _, [] => some []
  | 0, _ :: _ => none
  | fuel + 1, c :: rest =>
    if c = '\\' then
      match rest with
      | [] => none
      | e :: rest2 =>
        if e = 'g' then
          match rest2 with
          | '<' :: rest3 =>
            let name := rest3.takeWhile (fun d => d ≠ '>')
            match rest3.dropWhile (fun d => d ≠ '>') with
            | _ :: rest5 =>
              if name.isEmpty then none
              else if name.all Char.isDigit then
                if name.foldl (fun a d => 10 * a + (d.toNat - 48)) 0 = 0 then
                  (parseTemplateAux fuel rest5).map (fun ts => TItem.group0 :: ts)
                else none
              else none
            | [] => none
          | _ => none
        else if e = '0' then
          let ds := (rest2.take 2).takeWhile isOctDigit
          (parseTemplateAux fuel (rest2.drop ds.length)).map
            (fun ts => TItem.lit (Char.ofNat
              (ds.foldl (fun a d => 8 * a + (d.toNat - 48)) 0)) :: ts)
        else if e.isDigit then
          match rest2 with
          | d2 :: d3 :: rest3 =>
            if isOctDigit e && isOctDigit d2 && isOctDigit d3 then
              if 64 * (e.toNat - 48) + 8 * (d2.toNat - 48) + (d3.toNat - 48) ≤ 255 then
                (parseTemplateAux fuel rest3).map (fun ts =>
                  TItem.lit (Char.ofNat
                    (64 * (e.toNat - 48) + 8 * (d2.toNat - 48) + (d3.toNat - 48))) :: ts)
              else none
            else none
          | _ => none
        else if e = '\\' then
          (parseTemplateAux fuel rest2).map (fun ts => TItem.lit '\\' :: ts)
        else
          match escMap e with
          | some ec => (parseTemplateAux fuel rest2).map (fun ts => TItem.lit ec :: ts)
          | none =>
            if e.isAlpha then none
            else (parseTemplateAux fuel rest2).map
              (fun ts => TItem.lit '\\' :: TItem.lit e :: ts)
    else
      (parseTemplateAux fuel rest).map (fun ts => TItem.lit c :: ts)

/-- parse_template on a full replacement string; each step consumes at least
one character, so the string's length is sufficient fuel. -/
def parseTemplate (s : List Char) : Option (List TItem) :=
  parseTemplateAux s.length s

/-- Expand a parsed template at one match: literals stand for themselves and
a group-0 reference splices the whole matched text. -/
def expandT (whole : List Char) : List TItem → List Char
  | [] => []
  | TItem.lit c :: rest => c :: expandT whole rest
  | TItem.group0 :: rest => whole ++ expandT whole rest

/-- re.sub for the pattern  sm .*? em  with a parsed replacement template:
replace every non-overlapping match, expanding the template at the matched
text (the upsert pattern has no trailing whitespace eater). -/
def subAllAuxT (sm em : List Char) (repl : List TItem) : Nat → List Char → List Char
  | 0, s => s
  | fuel + 1, s =>
    match findMatch sm em s with
    | none => s
    | some (pre, mid, post) =>
      pre ++ expandT (sm ++ mid ++ em) repl ++ subAllAuxT sm em repl fuel post

/-- Python str.split(sep, 2) for a nonempty separator. -/
def pySplit2 (sep s : List Char) : List (List Char) :=
  match splitFirst sep s with
  | none => [s]
  | some (p1, r1) =>
    match splitFirst sep r1 with
    | none => [p1, r1]
    | some (p2, r2) => [p1, p2, r2]

/-- Worker for Python str.split(sep) with no maxsplit; fuel as in subAllAux. -/
def pySplitAllAux (sep : List Char) : Nat → List Char → List (List Char)
  | 0, s => [s]
  | fuel + 1, s =>
    match splitFirst sep s with
    | none => [s]
    | some (pre, post) => pre :: pySplitAllAux sep fuel post

/-- Python str.split(sep) for a nonempty separator. -/
def pySplitAll (sep s : List Char) : List (List Char) := pySplitAllAux sep s.length s

/-- Worker for Python str.replace(pat, repl); fuel as in subAllAux. -/
def pyReplaceAllAux (pat repl : List Char) : Nat → List Char → List Char
  | 0, s => s
  | fuel + 1, s =>
    match splitFirst pat s with
    | none => s
    | some (pre, post) => pre ++ repl ++ pyReplaceAllAux pat repl fuel post

/-- Python str.replace(pat, repl) for a nonempty pattern. -/
def pyReplaceAll (pat repl s : List Char) : List Char := pyReplaceAllAux pat repl s.length s

/-- Worker counting non-overlapping occurrences, scanning from the left. -/
def countOccAux (pat : List Char) : Nat → List Char → Nat
  | 0, _ => 0
  | fuel + 1, s =>
    match splitFirst pat s with
    | none => 0
    | some (_, post) => 1 + countOccAux pat fuel post

/-- Number of non-overlapping occurrences of a nonempty pattern (Python
str.count). -/
def countOcc (pat s : List Char) : Nat := countOccAux pat s.length s

/-- Characters Python str.splitlines treats as a line boundary on their own. -/
def isLineBrk (c : Char) : Bool :=
  c == '\n' || c == '\r' || c == '\x0b' || c == '\x0c' || c == '\x1c' ||
  c == '\x1d' || c == '\x1e' || c == '\x85' || c == ' ' || c == ' '

/-- Worker for Python str.splitlines: cur is the line being accumulated. -/
def pySplitlinesAux (cur : List Char) : List Char → List (List Char)
  | [] => if cur.isEmpty then [] else [cur]
  | '\r' :: '\n' :: rest => cur :: pySplitlinesAux [] rest
  | c :: rest =>
    if isLineBrk c then cur :: pySplitlinesAux [] rest
    else pySplitlinesAux (cur ++ [c]) rest

/-- Python str.splitlines (no trailing empty line for a terminated last line). -/
def pySplitlines (s : List Char) : List (List Char) := pySplitlinesAux [] s

/-- Worker for the regex replacement of every run of three or more newlines by
exactly two (re.sub of a three-plus newline run in remove_artifact).  Fuel as
in subAllAux: every step consumes at least one character of the input. -/
def collapseNLAux : Nat → List Char → List Char
  | 0, s => s
  | fuel + 1, s =>
    match s with
    | '\n' :: '\n' :: '\n' :: rest =>
      '\n' :: '\n' :: collapseNLAux fuel (rest.dropWhile (fun c => c == '\n'))
    | c :: rest => c :: collapseNLAux fuel rest
    | [] => []

/-- Replace every maximal run of three or more newlines by exactly two. -/
def collapseNL (s : List Char) : List Char := collapseNLAux s.length s

/-- Start marker line for a skill name (update_global_rule, cli.py line 139). -/
def startMarker (name : List Char) : List Char :=
  "<!-- ANTHROPIC_SKILL_START: ".data ++ name ++ " -->".data

/-- End marker line for a skill name (update_global_rule, cli.py line 140). -/
def endMarker (name : List Char) : List Char :=
  "<!-- ANTHROPIC_SKILL_END: ".data ++ name ++ " -->".data

/-- The block written for a skill (new_block, cli.py line 142). -/
def newBlock (name content : List Char) : List Char :=
  startMarker name ++ '\n' :: (content ++ '\n' :: endMarker name)

/-- update_global_rule (cli.py lines 129-159) as a pure function from the old
global document to the new one.  If the block pattern matches, pattern.sub
replaces every match by the new block; re.sub processes backslash escapes in
the string replacement (parse_template), so the template is parsed first and
a bad escape raises re.error, modelled by none: the command crashes and no
write happens.  Otherwise the new block is appended literally (pure f-string),
preceded by a blank line when the stripped current content is nonempty. -/
def update_global_rule (skill_name content doc : List Char) : Option (List Char) :=
  let sm := startMarker skill_name
  let em := endMarker skill_name
  let nb := newBlock skill_name content
  match findMatch sm em doc with
  | some _ =>
    match parseTemplate nb with
    | some items => some (subAllAuxT sm em items doc.length doc)
    | none => none
  | none =>
    let separator := if (pyStrip doc).isEmpty then [] else "\n\n".data
    some (doc ++ separator ++ nb)

/-- The global-scope branch of remove_artifact (cli.py lines 337-363) as a pure
function: returns the new document and whether a removal happened.  When the
start marker does not occur, the command reports not-found and performs no
write, modelled by returning the document unchanged with flag false. -/
def remove_global_rule (name doc : List Char) : List Char × Bool :=
  let sm := startMarker name
  let em := endMarker name
  if occursB sm doc then
    let removed := subAllAux sm em [] true doc.length doc
    (collapseNL (pyStrip removed ++ ['\n']), true)
  else (doc, false)

/-- Parsed view of a SKILL.md file (parse_skill_md's return value). -/
structure SkillData where
  frontmatter : List (List Char × List Char)
  body : List Char

/-- Lookup in the frontmatter mapping; later assignments win, as for the
Python dict built by parse_skill_md. -/
def fmGet (fm : List (List Char × List Char)) (k : List Char) : Option (List Char) :=
  fm.foldl (fun acc kv => if kv.1 = k then some kv.2 else acc) none

/-- The frontmatter loop of parse_skill_md (cli.py lines 105-108): every line
containing a colon is split on the first colon into a stripped key and value
and assigned into the mapping; other lines are ignored. -/
def parseFrontmatterLines (fmText : List Char) : List (List Char × List Char) :=
  (pySplitlines fmText).foldl
    (fun acc line =>
      match splitFirst [':'] line with
      | none => acc
      | some (k, v) => acc ++ [(pyStrip k, pyStrip v)])
    []

/-- parse_skill_md (cli.py lines 86-110) on the file's content: frontmatter is
extracted when the content starts with the characters of the delimiter and
str.split on the delimiter with maxsplit 2 yields three parts; then the body
is the stripped third part, otherwise the body is the whole content. -/
def parse_skill_md (content : List Char) : SkillData :=
  if "---".data.isPrefixOf content then
    match pySplit2 "---".data content with
    | [_, fmText, rest] => ⟨parseFrontmatterLines fmText, pyStrip rest⟩
    | _ => ⟨[], content⟩
  else ⟨[], content⟩

/-- The file content written by create_workflow (cli.py lines 113-126). -/
def workflow_content (skill_name : List Char) (data : SkillData) : List Char :=
  let description :=
    (fmGet data.frontmatter "description".data).getD ("Workflow for ".data ++ skill_name)
  "---\ndescription: ".data ++ description ++ "\n---\n".data ++ data.body ++ "\n".data

/-- Activation metadata passed to create_workspace_rule (the dict built by
command_ingest, cli.py lines 248-257). -/
structure Activation where
  type : List Char
  glob : Option (List Char)

/-- The file content written by create_workspace_rule (cli.py lines 162-184).
The glob line is emitted only when the activation dict holds a truthy glob
value (Python: if activation.get with key glob). -/
def workspace_rule_content (skill_name : List Char) (data : SkillData)
    (activation : Option Activation) : List Char :=
  let description :=
    (fmGet data.frontmatter "description".data).getD ("Rule for ".data ++ skill_name)
  let fm1 := "---\ndescription: ".data ++ description ++ "\n".data
  let fm2 :=
    match activation with
    | none => fm1
    | some a =>
      let fmA := fm1 ++ "activation:\n".data ++ "  type: ".data ++ a.type ++ "\n".data
      match a.glob with
      | some g => if g.isEmpty then fmA else fmA ++ "  glob: ".data ++ g ++ "\n".data
      | none => fmA
  fm2 ++ "---\n\n".data ++ data.body

/-- The workspace-rule branch of command_ingest (cli.py lines 246-259) as a
pure function: none models the error return before any write (the glob
activation type with a missing or empty glob pattern); some holds the file
content that create_workspace_rule writes. -/
def ingest_workspace_rule (activationArg globArg : Option (List Char))
    (skill_name : List Char) (data : SkillData) : Option (List Char) :=
  match activationArg with
  | none => some (workspace_rule_content skill_name data none)
  | some a =>
    if a = "glob".data then
      match globArg with
      | none => none
      | some p =>
        if p.isEmpty then none
        else some (workspace_rule_content skill_name data (some ⟨a, some p⟩))
    else some (workspace_rule_content skill_name data (some ⟨a, none⟩))

/-- Outcome of the source-selection logic of command_ingest. -/
inductive SourceSel where
  | ok : List Char → List Char → SourceSel
  | errNotFound : SourceSel
  | indexError : SourceSel
deriving DecidableEq

/-- Dict lookup on the configured sources (insertion-ordered, unique keys). -/
def lookupSource (sources : List (List Char × List Char)) (name : List Char) :
    Option (List Char) :=
  match sources with
  | [] => none
  | p :: rest => if p.1 = name then some p.2 else lookupSource rest name

/-- Source selection in command_ingest (cli.py lines 205-221): an explicit
source is looked up (printing an error when absent); otherwise the anthropics
source is preferred, falling back to the first configured source.  Indexing
the first element of an empty key list raises an uncaught IndexError,
modelled by the indexError outcome. -/
def select_source (sourceArg : Option (List Char))
    (sources : List (List Char × List Char)) : SourceSel :=
  match sourceArg with
  | some s =>
    match lookupSource sources s with
    | some u => .ok s u
    | none => .errNotFound
  | none =>
    match lookupSource sources "anthropics".data with
    | some u => .ok "anthropics".data u
    | none =>
      match sources with
      | [] => .indexError
      | p :: _ => .ok p.1 p.2

/-- The default source name computed by command_add_source (cli.py line 189):
url.split on slash, last element, str.replace of every occurrence of .git by
the empty string. -/
def default_source_name (url : List Char) : List Char :=
  pyReplaceAll ".git".data [] ((pySplitAll ['/'] url).getLastD [])

/-- Modelled from the spec (section 6): the URL's last path segment, i.e. the
maximal slash-free suffix of the URL. -/
def specLastSegment (url : List Char) : List Char :=
  (url.reverse.takeWhile (fun c => decide (c ≠ '/'))).reverse

/-- Modelled from the spec (section 6): stripping a .git suffix, leaving any
other occurrence of .git alone. -/
def specStripGitSuffix (s : List Char) : List Char :=
  if ".git".data <:+ s then s.take (s.length - 4) else s

/-- A document obtained by a sequence of global-rule upserts starting from the
empty document; an upsert that crashes (none) leaves the file unchanged. -/
def buildDoc (l : List (List Char × List Char)) : List Char :=
  l.foldl (fun d p => (update_global_rule p.1 p.2 d).getD d) []

/-- The well-formed document holding the given blocks in order, separated by
single blank lines. -/
def assemble : List (List Char × List Char) → List Char
  | [] => []
  | [p] => newBlock p.1 p.2
  | p :: rest => newBlock p.1 p.2 ++ '\n' :: '\n' :: assemble rest

/-- Whether the block-search regex of update_global_rule matches the document. -/
def hasBlockB (name doc : List Char) : Bool :=
  (findMatch (startMarker name) (endMarker name) doc).isSome

/-- A pattern with no proper self-overlap: no nonempty proper suffix of the
pattern is also a prefix of it.  The marker lines have this property when the
name avoids the angle bracket, which makes first-occurrence reasoning exact. -/
def NoSelfOverlap (pat : List Char) : Prop :=
  ∀ j, 0 < j → j < pat.length → pat.drop j ≠ pat.take (pat.length - j)

/-- Modelled from the spec (section 4.3): the value the frontmatter mapping
assigns to a key, described directly on the list of lines: among the lines
containing a colon whose stripped left part is the key, the last one wins,
and its stripped right part is the value. -/
def specFMLookup (lines : List (List Char)) (k : List Char) : Option (List Char) :=
  match lines with
  | [] => none
  | line :: rest =>
    match specFMLookup rest k with
    | some v => some v
    | none =>
      match splitFirst [':'] line with
      | none => none
      | some (kk, vv) => if pyStrip kk = k then some (pyStrip vv) else none

/-! ### Basic facts about the first-occurrence scanner -/

theorem splitFirst_sound {pat : List Char} :
    ∀ {s pre post : List Char}, splitFirst pat s = some (pre, post) →
      s = pre ++ pat ++ post := by
  intro s
  induction s with
  | nil =>
    intro pre post h
    simp only [splitFirst] at h
    by_cases hp : pat.isEmpty
    · rw [if_pos hp] at h
      obtain ⟨h1, h2⟩ := Prod.mk.injEq .. ▸ (Option.some.injEq .. ▸ h)
      rw [List.isEmpty_iff] at hp
      simp [← h1, ← h2, hp]
    · rw [if_neg hp] at h
      exact absurd h (by simp)
  | cons c rest ih =>
    intro pre post h
    simp only [splitFirst] at h
    by_cases hp : pat.isPrefixOf (c :: rest)
    · rw [if_pos hp] at h
      rw [List.isPrefixOf_iff_prefix] at hp
      obtain ⟨t, ht⟩ := hp
      obtain ⟨h1, h2⟩ := Prod.mk.injEq .. ▸ (Option.some.injEq .. ▸ h)
      subst h1
      have hd : (c :: rest).drop pat.length = t := by
        rw [← ht, List.drop_left]
      rw [hd] at h2
      subst h2
      simp [← ht]
    · rw [if_neg hp] at h
      cases hsf : splitFirst pat rest with
      | none => rw [hsf] at h; exact absurd h (by simp)
      | some pq =>
        obtain ⟨pre1, post1⟩ := pq
        rw [hsf] at h
        obtain ⟨h1, h2⟩ := Prod.mk.injEq .. ▸ (Option.some.injEq .. ▸ h)
        subst h2
        have := ih hsf
        rw [← h1]
        simp [this]

theorem splitFirst_isSome_of_occurs {pat : List Char} :
    ∀ {s : List Char}, Occurs pat s → (splitFirst pat s).isSome := by
  intro s
  induction s with
  | nil =>
    intro h
    obtain ⟨l, r, hE⟩ := h
    have hl := (List.append_eq_nil.mp (List.append_eq_nil.mp hE.symm).1).2
    simp [splitFirst, hl]
  | cons c rest ih =>
    intro h
    simp only [splitFirst]
    by_cases hp : pat.isPrefixOf (c :: rest)
    · simp [hp]
    · rw [if_neg hp]
      obtain ⟨l, r, hE⟩ := h
      cases hl : l with
      | nil =>
        exfalso
        apply hp
        rw [List.isPrefixOf_iff_prefix]
        rw [hl] at hE
        simp only [List.nil_append] at hE
        exact ⟨r, hE.symm⟩
      | cons c2 l2 =>
        rw [hl] at hE
        simp only [List.cons_append, List.cons.injEq] at hE
        have hr : Occurs pat rest := ⟨l2, r, hE.2⟩
        have := ih hr
        cases hsf : splitFirst pat rest with
        | none => rw [hsf] at this; exact absurd this (by simp)
        | some pq => simp

theorem occursB_iff {pat s : List Char} : occursB pat s = true ↔ Occurs pat s := by
  constructor
  · intro h
    rw [occursB, Option.isSome_iff_exists] at h
    obtain ⟨pq, hpq⟩ := h
    obtain ⟨pre, post⟩ := pq
    exact ⟨pre, post, splitFirst_sound hpq⟩
  · intro h
    exact splitFirst_isSome_of_occurs h

theorem occursB_false_iff {pat s : List Char} :
    occursB pat s = false ↔ ¬ Occurs pat s := by
  rw [← occursB_iff]
  cases occursB pat s <;> simp

theorem splitFirst_eq_none_of_not_occurs {pat s : List Char} (h : ¬ Occurs pat s) :
    splitFirst pat s = none := by
  have := occursB_false_iff.mpr h
  rw [occursB] at this
  cases hsf : splitFirst pat s with
  | none => rfl
  | some pq => rw [hsf] at this; exact absurd this (by simp)

theorem splitFirst_min {pat : List Char} :
    ∀ {s pre post : List Char}, splitFirst pat s = some (pre, post) →
      ∀ l r, s = l ++ pat ++ r → pre.length ≤ l.length := by
  intro s
  induction s with
  | nil =>
    intro pre post h l r hE
    simp only [splitFirst] at h
    by_cases hp : pat.isEmpty
    · rw [if_pos hp] at h
      obtain ⟨h1, h2⟩ := Prod.mk.injEq .. ▸ (Option.some.injEq .. ▸ h)
      simp [← h1]
    · rw [if_neg hp] at h
      exact absurd h (by simp)
  | cons c rest ih =>
    intro pre post h l r hE
    simp only [splitFirst] at h
    by_cases hp : pat.isPrefixOf (c :: rest)
    · rw [if_pos hp] at h
      obtain ⟨h1, h2⟩ := Prod.mk.injEq .. ▸ (Option.some.injEq .. ▸ h)
      simp [← h1]
    · rw [if_neg hp] at h
      cases hl : l with
      | nil =>
        exfalso
        apply hp
        rw [List.isPrefixOf_iff_prefix]
        exact ⟨r, by rw [hl] at hE; simp at hE; simp [hE]⟩
      | cons c2 l2 =>
        rw [hl] at hE
        simp only [List.cons_append, List.cons.injEq] at hE
        obtain ⟨hc2, hrest⟩ := hE
        cases hsf : splitFirst pat rest with
        | none => rw [hsf] at h; exact absurd h (by simp)
        | some pq =>
          obtain ⟨pre1, post1⟩ := pq
          rw [hsf] at h
          obtain ⟨h1, h2⟩ := Prod.mk.injEq .. ▸ (Option.some.injEq .. ▸ h)
          rw [← h1]
          simp only [List.length_cons]
          have := ih hsf l2 r hrest
          omega

theorem occurs_append_right_intro {pat x : List Char} (y : List Char)
    (h : Occurs pat x) : Occurs pat (x ++ y) := by
  obtain ⟨l, r, hE⟩ := h
  exact ⟨l, r ++ y, by rw [hE]; simp [List.append_assoc]⟩

theorem occurs_append_left_intro {pat y : List Char} (x : List Char)
    (h : Occurs pat y) : Occurs pat (x ++ y) := by
  obtain ⟨l, r, hE⟩ := h
  exact ⟨x ++ l, r, by rw [hE]; simp [List.append_assoc]⟩

theorem occurs_length_le {pat s : List Char} (h : Occurs pat s) :
    pat.length ≤ s.length := by
  obtain ⟨l, r, hE⟩ := h
  rw [hE]
  simp
  omega

theorem mem_of_occurs {pat s : List Char} {c : Char} (h : Occurs pat s)
    (hc : c ∈ pat) : c ∈ s := by
  obtain ⟨l, r, hE⟩ := h
  rw [hE]
  simp [hc]

theorem splitFirst_boundary_min {pat a b : List Char}
    (hmin : ∀ l r, a ++ pat ++ b = l ++ pat ++ r → a.length ≤ l.length) :
    splitFirst pat (a ++ pat ++ b) = some (a, b) := by
  have hocc : Occurs pat (a ++ pat ++ b) := ⟨a, b, rfl⟩
  have hs := splitFirst_isSome_of_occurs hocc
  cases hsf : splitFirst pat (a ++ pat ++ b) with
  | none => rw [hsf] at hs; exact absurd hs (by simp)
  | some pq =>
    obtain ⟨pre, post⟩ := pq
    have hsound := splitFirst_sound hsf
    have h1 : pre.length ≤ a.length := splitFirst_min hsf a b rfl
    have h2 : a.length ≤ pre.length := hmin pre post hsound
    have hinj := List.append_inj hsound.symm (by simp; omega)
    have hpre : pre = a := List.append_cancel_right hinj.1
    have hpost : post = b := hinj.2
    rw [hpre, hpost]

theorem early_occurrence_cases {pat a b l r : List Char}
    (hE : a ++ pat ++ b = l ++ pat ++ r) (hlt : l.length < a.length) :
    Occurs pat a ∨
      ∃ j, 0 < j ∧ j < pat.length ∧ a.drop l.length = pat.take j ∧
        pat.drop j = pat.take (pat.length - j) := by
  rw [List.append_assoc, List.append_assoc] at hE
  rcases List.append_eq_append_iff.mp hE with ⟨w, hw1, hw2⟩ | ⟨w, hw1, hw2⟩
  · exfalso
    have := congrArg List.length hw1
    simp at this
    omega
  · have hwlen : w.length = a.length - l.length := by
      have := congrArg List.length hw1
      simp at this
      omega
    have hwpos : 0 < w.length := by omega
    rw [← List.append_assoc] at hw2
    rcases List.append_eq_append_iff.mp hw2.symm with ⟨u, hu1, hu2⟩ | ⟨u, hu1, hu2⟩
    · -- hu1 : pat = (w ++ pat) ++ u : too long
      exfalso
      have := congrArg List.length hu1
      simp at this
      omega
    · -- hu1 : w ++ pat = pat ++ u
      rcases List.append_eq_append_iff.mp hu1 with ⟨v, hv1, hv2⟩ | ⟨v, hv1, hv2⟩
      · -- hv1 : pat = w ++ v, hv2 : pat = v ++ u
        cases hvnil : v with
        | nil =>
          left
          rw [hvnil, List.append_nil] at hv1
          exact ⟨l, [], by rw [hw1, ← hv1]; simp⟩
        | cons c cs =>
          right
          refine ⟨w.length, hwpos, ?_, ?_, ?_⟩
          · have := congrArg List.length hv1
            simp [hvnil] at this
            omega
          · rw [hw1, List.drop_left, hv1, List.take_left]
          · have hlv : (pat.length - w.length) = v.length := by
              have := congrArg List.length hv1
              simp at this
              omega
            have hd : pat.drop w.length = v := by
              rw [hv1]; exact List.drop_left w v
            have ht : pat.take (pat.length - w.length) = v := by
              rw [hlv, hv2]; exact List.take_left v u
            rw [hd, ht]
      · -- hv1 : w = pat ++ v
        left
        exact ⟨l, v, by rw [hw1, hv1, List.append_assoc]⟩

theorem splitFirst_at_boundary {pat a b : List Char}
    (hov : NoSelfOverlap pat) (hno : ¬ Occurs pat a) :
    splitFirst pat (a ++ pat ++ b) = some (a, b) := by
  apply splitFirst_boundary_min
  intro l r hE
  by_contra hlt
  push_neg at hlt
  rcases early_occurrence_cases hE hlt with h | ⟨j, hj0, hjlt, _, hover⟩
  · exact hno h
  · exact hov j hj0 hjlt hover

/-! ### Decomposing occurrences across concatenations -/

theorem occurs_append_cases {pat x y : List Char} (h : Occurs pat (x ++ y)) :
    Occurs pat x ∨ Occurs pat y ∨
      ∃ p q, pat = p ++ q ∧ p ≠ [] ∧ q ≠ [] ∧ p <:+ x ∧ q <+: y := by
  obtain ⟨l, r, hE⟩ := h
  rcases List.append_eq_append_iff.mp hE.symm with ⟨w, hw1, hw2⟩ | ⟨w, hw1, hw2⟩
  · -- hw1 : x = (l ++ pat) ++ w : pat occurs inside x
    left
    exact ⟨l, w, by rw [hw1, List.append_assoc]⟩
  · -- hw1 : l ++ pat = x ++ w, hw2 : y = w ++ r
    rcases List.append_eq_append_iff.mp hw1 with ⟨v, hv1, hv2⟩ | ⟨v, hv1, hv2⟩
    · -- hv1 : x = l ++ v, hv2 : pat = v ++ w
      cases hv : v with
      | nil =>
        right; left
        rw [hv, List.nil_append] at hv2
        exact ⟨[], r, by rw [hw2, ← hv2, List.nil_append]⟩
      | cons c cs =>
        cases hw : w with
        | nil =>
          left
          rw [hw, List.append_nil] at hv2
          exact ⟨l, [], by rw [hv1, ← hv2, List.append_nil]⟩
        | cons d ds =>
          right; right
          refine ⟨v, w, by rw [hv2], by rw [hv]; simp, by rw [hw]; simp, ?_, ?_⟩
          · exact ⟨l, hv1.symm⟩
          · exact ⟨r, hw2.symm⟩
    · -- hv1 : l = x ++ v, hv2 : w = v ++ pat
      right; left
      rw [hv2, List.append_assoc] at hw2
      exact ⟨v, r, by rw [List.append_assoc]; exact hw2⟩

theorem not_occurs_of_disjoint {pat y : List Char} (hpat : pat ≠ [])
    (hdisj : ∀ c ∈ y, c ∉ pat) : ¬ Occurs pat y := by
  intro h
  obtain ⟨c, cs, hc⟩ := List.exists_cons_of_ne_nil hpat
  have hcy : c ∈ y := mem_of_occurs h (by rw [hc]; exact List.mem_cons_self c cs)
  exact hdisj c hcy (by rw [hc]; exact List.mem_cons_self c cs)

theorem occurs_append_head_notmem {pat x y : List Char}
    (hhd : ∀ c, y.head? = some c → c ∉ pat)
    (h : Occurs pat (x ++ y)) : Occurs pat x ∨ Occurs pat y := by
  rcases occurs_append_cases h with hx | hy | ⟨p, q, hpq, hp, hq, hpx, hqy⟩
  · exact Or.inl hx
  · exact Or.inr hy
  · exfalso
    obtain ⟨c, cs, hc⟩ := List.exists_cons_of_ne_nil hq
    obtain ⟨t, ht⟩ := hqy
    have hhead : y.head? = some c := by
      rw [← ht, hc]; rfl
    exact hhd c hhead (by rw [hpq, hc]; simp)

theorem occurs_append_last_notmem {pat x y : List Char}
    (hlast : ∀ c, x.getLast? = some c → c ∉ pat)
    (h : Occurs pat (x ++ y)) : Occurs pat x ∨ Occurs pat y := by
  rcases occurs_append_cases h with hx | hy | ⟨p, q, hpq, hp, hq, hpx, hqy⟩
  · exact Or.inl hx
  · exact Or.inr hy
  · exfalso
    obtain ⟨p2, c, hc0⟩ := (List.eq_nil_or_concat p).resolve_left hp
    have hc : p = p2 ++ [c] := by rw [hc0]; simp
    obtain ⟨t, ht⟩ := hpx
    have hlx : x.getLast? = some c := by
      rw [← ht, hc, ← List.append_assoc, List.getLast?_concat]
    exact hlast c hlx (by rw [hpq, hc]; simp)

theorem occurs_append_head_fresh {c0 : Char} {pat0 x y : List Char}
    (hx : ∀ c ∈ x, c ≠ c0) (h : Occurs (c0 :: pat0) (x ++ y)) :
    Occurs (c0 :: pat0) y := by
  rcases occurs_append_cases h with hocc | hy | ⟨p, q, hpq, hp, hq, hpx, hqy⟩
  · exfalso
    have : c0 ∈ x := mem_of_occurs hocc (List.mem_cons_self c0 pat0)
    exact hx c0 this rfl
  · exact hy
  · exfalso
    obtain ⟨c, cs, hc⟩ := List.exists_cons_of_ne_nil hp
    have hcc : c = c0 := by
      rw [hc] at hpq
      exact (List.cons.injEq .. ▸ hpq).1.symm
    have : c ∈ x := hpx.subset (by rw [hc]; exact List.mem_cons_self c cs)
    exact hx c this (hcc ▸ rfl)

theorem occurs_head_unique_is_prefix {c0 : Char} {t pat0 : List Char}
    (hc : c0 ∉ t) (h : Occurs (c0 :: pat0) (c0 :: t)) :
    ∃ r, c0 :: t = (c0 :: pat0) ++ r := by
  obtain ⟨l, r, hE⟩ := h
  cases hl : l with
  | nil =>
    rw [hl, List.nil_append] at hE
    exact ⟨r, hE⟩
  | cons c l2 =>
    exfalso
    rw [hl] at hE
    simp only [List.cons_append, List.cons.injEq] at hE
    apply hc
    rw [hE.2]
    simp

theorem noSelfOverlap_cons {c0 : Char} {t : List Char} (hc : c0 ∉ t) :
    NoSelfOverlap (c0 :: t) := by
  intro j hj0 hjlt heq
  obtain ⟨j2, rfl⟩ : ∃ j2, j = j2 + 1 := ⟨j - 1, by omega⟩
  rw [List.drop_succ_cons] at heq
  obtain ⟨k, hk⟩ : ∃ k, (c0 :: t).length - (j2 + 1) = k + 1 := by
    refine ⟨t.length - (j2 + 1), ?_⟩
    simp only [List.length_cons] at hjlt ⊢
    omega
  rw [hk, List.take_succ_cons] at heq
  have hmem : c0 ∈ t.drop j2 := by rw [heq]; exact List.mem_cons_self c0 _
  exact hc (List.Sublist.mem hmem (List.drop_sublist j2 t))

/-! ### Character-level facts about the marker lines -/

theorem takeWhile_append_of_all {p : Char → Bool} {x y : List Char}
    (hx : ∀ c ∈ x, p c = true) :
    List.takeWhile p (x ++ y) = x ++ List.takeWhile p y := by
  induction x with
  | nil => simp
  | cons c cs ih =>
    rw [List.cons_append, List.takeWhile_cons, if_pos (hx c (List.mem_cons_self c cs))]
    rw [ih (fun d hd => hx d (List.mem_cons_of_mem c hd))]
    rfl

theorem startMarker_cons (n : List Char) :
    startMarker n = '<' :: ("!-- ANTHROPIC_SKILL_START: ".data ++ n ++ " -->".data) := rfl

theorem endMarker_cons (n : List Char) :
    endMarker n = '<' :: ("!-- ANTHROPIC_SKILL_END: ".data ++ n ++ " -->".data) := rfl

theorem lt_not_mem_startMarker_tail {n : List Char} (hn : '<' ∉ n) :
    '<' ∉ "!-- ANTHROPIC_SKILL_START: ".data ++ n ++ " -->".data := by
  intro h
  rcases List.mem_append.mp h with h1 | h1
  · rcases List.mem_append.mp h1 with h2 | h2
    · exact absurd h2 (by decide)
    · exact hn h2
  · exact absurd h1 (by decide)

theorem lt_not_mem_endMarker_tail {n : List Char} (hn : '<' ∉ n) :
    '<' ∉ "!-- ANTHROPIC_SKILL_END: ".data ++ n ++ " -->".data := by
  intro h
  rcases List.mem_append.mp h with h1 | h1
  · rcases List.mem_append.mp h1 with h2 | h2
    · exact absurd h2 (by decide)
    · exact hn h2
  · exact absurd h1 (by decide)

theorem noSelfOverlap_startMarker {n : List Char} (hn : '<' ∉ n) :
    NoSelfOverlap (startMarker n) := by
  rw [startMarker_cons]
  exact noSelfOverlap_cons (lt_not_mem_startMarker_tail hn)

theorem noSelfOverlap_endMarker {n : List Char} (hn : '<' ∉ n) :
    NoSelfOverlap (endMarker n) := by
  rw [endMarker_cons]
  exact noSelfOverlap_cons (lt_not_mem_endMarker_tail hn)

theorem startMarker_ne_nil (n : List Char) : startMarker n ≠ [] := by
  rw [startMarker_cons]
  simp

theorem endMarker_ne_nil (n : List Char) : endMarker n ≠ [] := by
  rw [endMarker_cons]
  simp

theorem nl_not_mem_startMarker {n : List Char} (hn : '\n' ∉ n) :
    '\n' ∉ startMarker n := by
  intro h
  rw [startMarker] at h
  rcases List.mem_append.mp h with h1 | h1
  · rcases List.mem_append.mp h1 with h2 | h2
    · exact absurd h2 (by decide)
    · exact hn h2
  · exact absurd h1 (by decide)

theorem nl_not_mem_endMarker {n : List Char} (hn : '\n' ∉ n) :
    '\n' ∉ endMarker n := by
  intro h
  rw [endMarker] at h
  rcases List.mem_append.mp h with h1 | h1
  · rcases List.mem_append.mp h1 with h2 | h2
    · exact absurd h2 (by decide)
    · exact hn h2
  · exact absurd h1 (by decide)

theorem bs_not_mem_startMarker {n : List Char} (hn : '\\' ∉ n) :
    '\\' ∉ startMarker n := by
  intro h
  rw [startMarker] at h
  rcases List.mem_append.mp h with h1 | h1
  · rcases List.mem_append.mp h1 with h2 | h2
    · exact absurd h2 (by decide)
    · exact hn h2
  · exact absurd h1 (by decide)

theorem bs_not_mem_endMarker {n : List Char} (hn : '\\' ∉ n) :
    '\\' ∉ endMarker n := by
  intro h
  rw [endMarker] at h
  rcases List.mem_append.mp h with h1 | h1
  · rcases List.mem_append.mp h1 with h2 | h2
    · exact absurd h2 (by decide)
    · exact hn h2
  · exact absurd h1 (by decide)

theorem bs_not_mem_newBlock {n c : List Char} (hn : '\\' ∉ n) (hc : '\\' ∉ c) :
    '\\' ∉ newBlock n c := by
  intro h
  rw [newBlock] at h
  rcases List.mem_append.mp h with h1 | h1
  · exact bs_not_mem_startMarker hn h1
  · rcases List.mem_cons.mp h1 with h2 | h2
    · exact absurd h2 (by decide)
    · rcases List.mem_append.mp h2 with h3 | h3
      · exact hc h3
      · rcases List.mem_cons.mp h3 with h4 | h4
        · exact absurd h4 (by decide)
        · exact bs_not_mem_endMarker hn h4

theorem expandT_map_lit : ∀ (w s : List Char), expandT w (s.map TItem.lit) = s := by
  intro w s
  induction s with
  | nil => rfl
  | cons c cs ih => simp only [List.map_cons, expandT, ih]

theorem parseTemplateAux_no_bs :
    ∀ (fuel : Nat) (s : List Char), s.length ≤ fuel → '\\' ∉ s →
      parseTemplateAux fuel s = some (s.map TItem.lit) := by
  intro fuel
  induction fuel with
  | zero =>
    intro s hlen _
    cases s with
    | nil => rfl
    | cons c rest => simp at hlen
  | succ k ih =>
    intro s hlen hbs
    cases s with
    | nil => rfl
    | cons c rest =>
      have hc : c ≠ '\\' := fun h => hbs (h ▸ List.mem_cons_self c rest)
      have hrest : '\\' ∉ rest := fun h => hbs (List.mem_cons_of_mem c h)
      have hlen2 : rest.length ≤ k := by
        simp only [List.length_cons] at hlen
        omega
      simp only [parseTemplateAux, if_neg hc]
      rw [ih rest hlen2 hrest]
      rfl

theorem parseTemplate_no_bs {s : List Char} (h : '\\' ∉ s) :
    parseTemplate s = some (s.map TItem.lit) :=
  parseTemplateAux_no_bs s.length s le_rfl h

theorem subAllAuxT_map_lit (sm em repl : List Char) :
    ∀ (fuel : Nat) (s : List Char),
      subAllAuxT sm em (repl.map TItem.lit) fuel s =
        subAllAux sm em repl false fuel s := by
  intro fuel
  induction fuel with
  | zero => intro s; rfl
  | succ k ih =>
    intro s
    cases h : findMatch sm em s with
    | none => simp only [subAllAuxT, subAllAux, h]
    | some m =>
      obtain ⟨pre, m2⟩ := m
      obtain ⟨mid, post⟩ := m2
      simp only [subAllAuxT, subAllAux, h, expandT_map_lit, ih]
      rfl

theorem occurs_startMarker_startMarker {n m : List Char} (hm : '<' ∉ m)
    (hgn : '>' ∉ n) (hgm : '>' ∉ m)
    (h : Occurs (startMarker n) (startMarker m)) : n = m := by
  rw [startMarker_cons n, startMarker_cons m] at h
  obtain ⟨r, hr⟩ := occurs_head_unique_is_prefix (lt_not_mem_startMarker_tail hm) h
  rw [← startMarker_cons n, ← startMarker_cons m] at hr
  rw [startMarker, startMarker] at hr
  simp only [List.append_assoc] at hr
  have hcan := List.append_cancel_left hr
  have htw := congrArg (List.takeWhile (fun c => decide (c ≠ '>'))) hcan
  rw [takeWhile_append_of_all (by
        intro c hc
        simp only [decide_eq_true_eq]
        intro hcg
        exact hgm (hcg ▸ hc)),
      takeWhile_append_of_all (by
        intro c hc
        simp only [decide_eq_true_eq]
        intro hcg
        exact hgn (hcg ▸ hc))] at htw
  have hs1 : List.takeWhile (fun c => decide (c ≠ '>')) (" -->".data) = " --".data := by
    decide
  have hs2 : List.takeWhile (fun c => decide (c ≠ '>')) (" -->".data ++ r) = " --".data := by
    show List.takeWhile (fun c => decide (c ≠ '>')) (' ' :: '-' :: '-' :: '>' :: r) = " --".data
    simp [List.takeWhile_cons]
  rw [hs1, hs2] at htw
  exact (List.append_cancel_right htw).symm

theorem occurs_endMarker_endMarker {n m : List Char} (hm : '<' ∉ m)
    (hgn : '>' ∉ n) (hgm : '>' ∉ m)
    (h : Occurs (endMarker n) (endMarker m)) : n = m := by
  rw [endMarker_cons n, endMarker_cons m] at h
  obtain ⟨r, hr⟩ := occurs_head_unique_is_prefix (lt_not_mem_endMarker_tail hm) h
  rw [← endMarker_cons n, ← endMarker_cons m] at hr
  rw [endMarker, endMarker] at hr
  simp only [List.append_assoc] at hr
  have hcan := List.append_cancel_left hr
  have htw := congrArg (List.takeWhile (fun c => decide (c ≠ '>'))) hcan
  rw [takeWhile_append_of_all (by
        intro c hc
        simp only [decide_eq_true_eq]
        intro hcg
        exact hgm (hcg ▸ hc)),
      takeWhile_append_of_all (by
        intro c hc
        simp only [decide_eq_true_eq]
        intro hcg
        exact hgn (hcg ▸ hc))] at htw
  have hs1 : List.takeWhile (fun c => decide (c ≠ '>')) (" -->".data) = " --".data := by
    decide
  have hs2 : List.takeWhile (fun c => decide (c ≠ '>')) (" -->".data ++ r) = " --".data := by
    show List.takeWhile (fun c => decide (c ≠ '>')) (' ' :: '-' :: '-' :: '>' :: r) = " --".data
    simp [List.takeWhile_cons]
  rw [hs1, hs2] at htw
  exact (List.append_cancel_right htw).symm

theorem not_occurs_startMarker_endMarker {n m : List Char} (hm : '<' ∉ m) :
    ¬ Occurs (startMarker n) (endMarker m) := by
  intro h
  rw [startMarker_cons n, endMarker_cons m] at h
  obtain ⟨r, hr⟩ := occurs_head_unique_is_prefix (lt_not_mem_endMarker_tail hm) h
  rw [← startMarker_cons n, ← endMarker_cons m] at hr
  have he : endMarker m =
      "<!-- ANTHROPIC_SKILL_".data ++ ("END: ".data ++ (m ++ " -->".data)) := rfl
  have hs : startMarker n =
      "<!-- ANTHROPIC_SKILL_".data ++ ("START: ".data ++ (n ++ " -->".data)) := rfl
  rw [he, hs, List.append_assoc] at hr
  have hcan := List.append_cancel_left hr
  have hES : (some 'E' : Option Char) = some 'S' := congrArg List.head? hcan
  exact absurd hES (by decide)

theorem not_occurs_endMarker_startMarker {n m : List Char} (hm : '<' ∉ m) :
    ¬ Occurs (endMarker n) (startMarker m) := by
  intro h
  rw [endMarker_cons n, startMarker_cons m] at h
  obtain ⟨r, hr⟩ := occurs_head_unique_is_prefix (lt_not_mem_startMarker_tail hm) h
  rw [← endMarker_cons n, ← startMarker_cons m] at hr
  have he : endMarker n =
      "<!-- ANTHROPIC_SKILL_".data ++ ("END: ".data ++ (n ++ " -->".data)) := rfl
  have hs : startMarker m =
      "<!-- ANTHROPIC_SKILL_".data ++ ("START: ".data ++ (m ++ " -->".data)) := rfl
  rw [he, hs, List.append_assoc] at hr
  have hcan := List.append_cancel_left hr
  have hSE : (some 'S' : Option Char) = some 'E' := congrArg List.head? hcan
  exact absurd hSE (by decide)

theorem startMarker_getLast? (n : List Char) :
    (startMarker n).getLast? = some '>' := by
  rw [startMarker]
  have : "<!-- ANTHROPIC_SKILL_START: ".data ++ n ++ " -->".data =
      ("<!-- ANTHROPIC_SKILL_START: ".data ++ n ++ " --".data) ++ ['>'] := by
    simp [List.append_assoc]
  rw [this, List.getLast?_concat]

theorem endMarker_getLast? (n : List Char) :
    (endMarker n).getLast? = some '>' := by
  rw [endMarker]
  have : "<!-- ANTHROPIC_SKILL_END: ".data ++ n ++ " -->".data =
      ("<!-- ANTHROPIC_SKILL_END: ".data ++ n ++ " --".data) ++ ['>'] := by
    simp [List.append_assoc]
  rw [this, List.getLast?_concat]

/-! ### Whitespace and strip lemmas -/

theorem dropWhile_append_of_all {p : Char → Bool} {u v : List Char}
    (hu : ∀ c ∈ u, p c = true) :
    List.dropWhile p (u ++ v) = List.dropWhile p v := by
  induction u with
  | nil => simp
  | cons c cs ih =>
    rw [List.cons_append, List.dropWhile_cons, if_pos (hu c (List.mem_cons_self c cs))]
    exact ih (fun d hd => hu d (List.mem_cons_of_mem c hd))

theorem dropWhile_head_false {p : Char → Bool} {x : List Char}
    (hh : ∀ c, x.head? = some c → p c = false) :
    List.dropWhile p x = x := by
  cases x with
  | nil => rfl
  | cons c cs =>
    rw [List.dropWhile_cons, if_neg]
    rw [hh c rfl]
    simp

theorem pyRStrip_eq_self {x : List Char}
    (hl : ∀ c, x.getLast? = some c → isPySpace c = false) : pyRStrip x = x := by
  rw [pyRStrip, dropWhile_head_false, List.reverse_reverse]
  intro c hc
  apply hl
  rw [← List.head?_reverse]
  exact hc

theorem pyStrip_eq_self {x : List Char}
    (hh : ∀ c, x.head? = some c → isPySpace c = false)
    (hl : ∀ c, x.getLast? = some c → isPySpace c = false) : pyStrip x = x := by
  rw [pyStrip, pyLStrip, dropWhile_head_false hh, pyRStrip_eq_self hl]

theorem pyRStrip_append_ws {x w : List Char} (hw : ∀ c ∈ w, isPySpace c = true) :
    pyRStrip (x ++ w) = pyRStrip x := by
  rw [pyRStrip, pyRStrip, List.reverse_append, dropWhile_append_of_all]
  intro c hc
  exact hw c (List.mem_reverse.mp hc)

theorem pyStrip_append_ws {x w : List Char} (hw : ∀ c ∈ w, isPySpace c = true)
    (hh : ∀ c, x.head? = some c → isPySpace c = false) :
    pyStrip (x ++ w) = pyRStrip x := by
  cases hx : x with
  | nil =>
    rw [pyStrip, pyLStrip, List.nil_append, List.dropWhile_eq_nil_iff.mpr hw]
  | cons c cs =>
    rw [pyStrip, pyLStrip, List.cons_append, List.dropWhile_cons, if_neg (by
      rw [hh c (by rw [hx]; rfl)]
      simp)]
    rw [← List.cons_append, pyRStrip_append_ws hw]

theorem all_ws_of_pyStrip_eq_nil {d : List Char} (h : pyStrip d = []) :
    ∀ c ∈ d, isPySpace c = true := by
  rw [pyStrip, pyRStrip, List.reverse_eq_nil_iff] at h
  have h2 : ∀ c ∈ (pyLStrip d).reverse, isPySpace c = true :=
    List.dropWhile_eq_nil_iff.mp h
  have h3 : ∀ c ∈ pyLStrip d, isPySpace c = true := by
    intro c hc
    exact h2 c (List.mem_reverse.mpr hc)
  intro c hc
  rw [← List.takeWhile_append_dropWhile isPySpace d] at hc
  rcases List.mem_append.mp hc with h4 | h4
  · exact List.mem_takeWhile_imp h4
  · exact h3 c h4

/-! ### Occurrences inside blocks and assembled documents -/

theorem occurs_append_all_notmem_left {pat x y : List Char} (hpat : pat ≠ [])
    (hx : ∀ c ∈ x, c ∉ pat) (h : Occurs pat (x ++ y)) : Occurs pat y := by
  rcases occurs_append_cases h with hocc | hy | ⟨p, q, hpq, hp, hq, hpx, hqy⟩
  · exfalso
    obtain ⟨c, cs, hc⟩ := List.exists_cons_of_ne_nil hpat
    have : c ∈ x := mem_of_occurs hocc (by rw [hc]; exact List.mem_cons_self c cs)
    exact hx c this (by rw [hc]; exact List.mem_cons_self c cs)
  · exact hy
  · exfalso
    obtain ⟨c, cs, hc⟩ := List.exists_cons_of_ne_nil hp
    have hcx : c ∈ x := hpx.subset (by rw [hc]; exact List.mem_cons_self c cs)
    exact hx c hcx (by rw [hpq, hc]; simp)

theorem occurs_append_all_notmem_right {pat x y : List Char} (hpat : pat ≠ [])
    (hy : ∀ c ∈ y, c ∉ pat) (h : Occurs pat (x ++ y)) : Occurs pat x := by
  rcases occurs_append_cases h with hocc | hocc | ⟨p, q, hpq, hp, hq, hpx, hqy⟩
  · exact hocc
  · exfalso
    obtain ⟨c, cs, hc⟩ := List.exists_cons_of_ne_nil hpat
    have : c ∈ y := mem_of_occurs hocc (by rw [hc]; exact List.mem_cons_self c cs)
    exact hy c this (by rw [hc]; exact List.mem_cons_self c cs)
  · exfalso
    obtain ⟨c, cs, hc⟩ := List.exists_cons_of_ne_nil hq
    have hcy : c ∈ y := hqy.subset (by rw [hc]; exact List.mem_cons_self c cs)
    exact hy c hcy (by rw [hpq, hc]; simp)

theorem not_occurs_newBlock {pat n c : List Char} (hpat : pat ≠ [])
    (hnl : '\n' ∉ pat) (hsm : ¬ Occurs pat (startMarker n))
    (hc : ¬ Occurs pat c) (hem : ¬ Occurs pat (endMarker n)) :
    ¬ Occurs pat (newBlock n c) := by
  intro h
  rw [newBlock] at h
  rcases occurs_append_head_notmem (by
      intro d hd
      have : d = '\n' := by
        simp only [List.head?] at hd
        exact (Option.some.injEq .. ▸ hd).symm
      rw [this]
      exact hnl) h with h1 | h1
  · exact hsm h1
  · have h2 : Occurs pat (c ++ '\n' :: endMarker n) := by
      have : ('\n' :: (c ++ '\n' :: endMarker n)) = ['\n'] ++ (c ++ '\n' :: endMarker n) := rfl
      rw [this] at h1
      exact occurs_append_all_notmem_left hpat (by
        intro d hd
        simp at hd
        rw [hd]
        exact hnl) h1
    rcases occurs_append_head_notmem (by
        intro d hd
        have : d = '\n' := by
          simp only [List.head?] at hd
          exact (Option.some.injEq .. ▸ hd).symm
        rw [this]
        exact hnl) h2 with h3 | h3
    · exact hc h3
    · have h4 : Occurs pat (endMarker n) := by
        have : ('\n' :: endMarker n) = ['\n'] ++ endMarker n := rfl
        rw [this] at h3
        exact occurs_append_all_notmem_left hpat (by
          intro d hd
          simp at hd
          rw [hd]
          exact hnl) h3
      exact hem h4

/-! ### Stepping the replace-all and count scanners -/

theorem findMatch_eq_none_of_not_occurs {sm em s : List Char} (h : ¬ Occurs sm s) :
    findMatch sm em s = none := by
  rw [findMatch, splitFirst_eq_none_of_not_occurs h]

theorem subAllAux_no_match {sm em repl : List Char} {b : Bool} {s : List Char}
    (h : findMatch sm em s = none) :
    ∀ fuel, subAllAux sm em repl b fuel s = s := by
  intro fuel
  cases fuel with
  | zero => rfl
  | succ k => simp only [subAllAux, h]

theorem subAllAux_step {sm em repl : List Char} {b : Bool}
    {s pre mid post : List Char} (fuel : Nat)
    (h : findMatch sm em s = some (pre, mid, post)) :
    subAllAux sm em repl b (fuel + 1) s =
      pre ++ repl ++ subAllAux sm em repl b fuel
        (if b then post.dropWhile isPySpace else post) := by
  simp only [subAllAux, h]

theorem countOccAux_eq_zero {pat s : List Char} (h : ¬ Occurs pat s) :
    ∀ fuel, countOccAux pat fuel s = 0 := by
  intro fuel
  cases fuel with
  | zero => rfl
  | succ k => simp only [countOccAux, splitFirst_eq_none_of_not_occurs h]

theorem countOcc_eq_one {pat s pre post : List Char}
    (hsf : splitFirst pat s = some (pre, post)) (hpost : ¬ Occurs pat post) :
    countOcc pat s = 1 := by
  obtain ⟨k, hk⟩ : ∃ k, s.length = k + 1 := by
    cases hs : s with
    | nil =>
      exfalso
      rw [hs] at hsf
      simp only [splitFirst] at hsf
      by_cases hp : pat.isEmpty
      · rw [if_pos hp] at hsf
        apply hpost
        rw [List.isEmpty_iff] at hp
        obtain ⟨h1, h2⟩ := Prod.mk.injEq .. ▸ (Option.some.injEq .. ▸ hsf)
        exact ⟨[], [], by rw [← h2, hp]; rfl⟩
      · rw [if_neg hp] at hsf
        exact absurd hsf (by simp)
    | cons c cs => exact ⟨cs.length, rfl⟩
  rw [countOcc, hk]
  simp only [countOccAux, hsf]
  rw [countOccAux_eq_zero hpost]

/-! ### Locating the unique block match of the upsert and removal patterns -/

theorem upsert_no_match {n c doc : List Char} (h : ¬ Occurs (startMarker n) doc) :
    update_global_rule n c doc =
      some (doc ++ (if (pyStrip doc).isEmpty then [] else "\n\n".data) ++ newBlock n c) := by
  rw [update_global_rule]
  simp only [findMatch_eq_none_of_not_occurs h]

theorem straddle_false_of_last_nl {pat X : List Char} (hnl : '\n' ∉ pat)
    (hX : X.getLast? = some '\n') :
    ∀ p q, pat = p ++ q → p ≠ [] → q ≠ [] → p <:+ X → False := by
  intro p q hpq hp hq hpx
  obtain ⟨p2, ch, hc0⟩ := (List.eq_nil_or_concat p).resolve_left hp
  have hc : p = p2 ++ [ch] := by rw [hc0]; simp
  obtain ⟨t, ht⟩ := hpx
  have hlx : X.getLast? = some ch := by
    rw [← ht, hc, ← List.append_assoc, List.getLast?_concat]
  have hch : ch = '\n' := by
    rw [hlx] at hX
    exact (Option.some.injEq .. ▸ hX)
  apply hnl
  rw [hpq, hc, hch]
  simp

theorem straddle_false_of_all_ws {c0 : Char} {pat0 X : List Char}
    (hc0 : isPySpace c0 = false) (hX : ∀ ch ∈ X, isPySpace ch = true) :
    ∀ p q, c0 :: pat0 = p ++ q → p ≠ [] → q ≠ [] → p <:+ X → False := by
  intro p q hpq hp hq hpx
  obtain ⟨d, ds, hd⟩ := List.exists_cons_of_ne_nil hp
  have hdc : d = c0 := by
    rw [hd] at hpq
    exact ((List.cons.injEq .. ▸ hpq).1).symm
  have : d ∈ X := hpx.subset (by rw [hd]; exact List.mem_cons_self d ds)
  rw [hdc] at this
  rw [hX c0 this] at hc0
  exact absurd hc0 (by simp)

theorem straddle_false_of_nil {pat : List Char} :
    ∀ p q, pat = p ++ q → p ≠ [] → q ≠ [] → p <:+ ([] : List Char) → False := by
  intro p q hpq hp hq hpx
  exact hp (List.eq_nil_of_suffix_nil hpx)

theorem not_occurs_em_zone {n c2 X : List Char} (hlt : '<' ∉ n) (hnl : '\n' ∉ n)
    (hX : ¬ Occurs (endMarker n) X)
    (hstraddle : ∀ p q, endMarker n = p ++ q → p ≠ [] → q ≠ [] → p <:+ X → False)
    (h5 : ¬ Occurs (endMarker n) c2) :
    ¬ Occurs (endMarker n) ((X ++ startMarker n) ++ ('\n' :: c2 ++ ['\n'])) := by
  intro h
  rw [List.append_assoc] at h
  rcases occurs_append_cases h with h1 | h1 | ⟨p, q, hpq, hp, hq, hpx, hqy⟩
  · exact hX h1
  · rcases occurs_append_head_notmem (by
        intro d hd
        have hdnl : d = '\n' := by
          simp only [List.cons_append, List.head?] at hd
          exact (Option.some.injEq .. ▸ hd).symm
        rw [hdnl]
        exact nl_not_mem_endMarker hnl) h1 with h2 | h2
    · exact absurd h2 (not_occurs_endMarker_startMarker hlt)
    · have h3 : Occurs (endMarker n) (c2 ++ ['\n']) := by
        have hsplit : ('\n' :: c2 ++ ['\n']) = ['\n'] ++ (c2 ++ ['\n']) := by simp
        rw [hsplit] at h2
        exact occurs_append_all_notmem_left (endMarker_ne_nil n) (by
          intro d hd
          simp at hd
          rw [hd]
          exact nl_not_mem_endMarker hnl) h2
      have h4 : Occurs (endMarker n) c2 :=
        occurs_append_all_notmem_right (endMarker_ne_nil n) (by
          intro d hd
          simp at hd
          rw [hd]
          exact nl_not_mem_endMarker hnl) h3
      exact h5 h4
  · exact hstraddle p q hpq hp hq hpx

theorem not_occurs_em_between {n c : List Char} (hnl : '\n' ∉ n)
    (h3 : ¬ Occurs (endMarker n) c) :
    ¬ Occurs (endMarker n) ('\n' :: c ++ ['\n']) := by
  intro h
  have hsplit : ('\n' :: c ++ ['\n']) = ['\n'] ++ (c ++ ['\n']) := by simp
  rw [hsplit] at h
  have hnm : ∀ d ∈ ['\n'], d ∉ endMarker n := by
    intro d hd
    simp at hd
    rw [hd]
    exact nl_not_mem_endMarker hnl
  have h6 := occurs_append_all_notmem_left (endMarker_ne_nil n) hnm h
  exact h3 (occurs_append_all_notmem_right (endMarker_ne_nil n) hnm h6)

theorem newBlock_shape (n c : List Char) :
    newBlock n c = startMarker n ++ (('\n' :: c ++ ['\n']) ++ endMarker n ++ []) := by
  rw [newBlock]
  simp

theorem upsert_twice_core {n c c2 A : List Char}
    (hlt : '<' ∉ n) (hnl : '\n' ∉ n) (hbsn : '\\' ∉ n) (hbsc2 : '\\' ∉ c2)
    (hA1 : ¬ Occurs (startMarker n) A)
    (hA2 : ¬ Occurs (endMarker n) A)
    (hstraddle : ∀ p q, endMarker n = p ++ q → p ≠ [] → q ≠ [] → p <:+ A → False)
    (h3 : ¬ Occurs (endMarker n) c)
    (h4 : ¬ Occurs (startMarker n) c2) (h5 : ¬ Occurs (endMarker n) c2) :
    update_global_rule n c2 (A ++ newBlock n c) = some (A ++ newBlock n c2) ∧
    countOcc (startMarker n) (A ++ newBlock n c2) = 1 ∧
    countOcc (endMarker n) (A ++ newBlock n c2) = 1 := by
  have hsm_ne := startMarker_ne_nil n
  have hem_ne := endMarker_ne_nil n
  have hshape : ∀ c3 : List Char, A ++ newBlock n c3 =
      A ++ startMarker n ++ ('\n' :: (c3 ++ '\n' :: endMarker n)) := by
    intro c3
    rw [newBlock]
    simp
  have hstep3 : ∀ c3 : List Char, splitFirst (startMarker n) (A ++ newBlock n c3) =
      some (A, '\n' :: (c3 ++ '\n' :: endMarker n)) := by
    intro c3
    rw [hshape c3]
    exact splitFirst_at_boundary (noSelfOverlap_startMarker hlt) hA1
  have hBshape : ∀ c3 : List Char, ('\n' :: (c3 ++ '\n' :: endMarker n)) =
      ('\n' :: c3 ++ ['\n']) ++ endMarker n ++ [] := by
    intro c3
    simp
  have hstep4 : ∀ c3 : List Char, ¬ Occurs (endMarker n) c3 →
      splitFirst (endMarker n) ('\n' :: (c3 ++ '\n' :: endMarker n)) =
        some ('\n' :: c3 ++ ['\n'], []) := by
    intro c3 hc3
    rw [hBshape c3]
    exact splitFirst_at_boundary (noSelfOverlap_endMarker hlt)
      (not_occurs_em_between hnl hc3)
  have hstep5 : findMatch (startMarker n) (endMarker n) (A ++ newBlock n c) =
      some (A, '\n' :: c ++ ['\n'], []) := by
    simp only [findMatch, hstep3 c, hstep4 c h3]
  refine ⟨?_, ?_, ?_⟩
  · rw [update_global_rule]
    simp only [hstep5]
    simp only [parseTemplate_no_bs (bs_not_mem_newBlock hbsn hbsc2)]
    rw [subAllAuxT_map_lit]
    have hpos : 0 < (A ++ newBlock n c).length := by
      rw [newBlock]
      simp
    obtain ⟨k, hk⟩ : ∃ k, (A ++ newBlock n c).length = k + 1 :=
      ⟨(A ++ newBlock n c).length - 1, by omega⟩
    rw [hk, subAllAux_step k hstep5]
    have hnil : ¬ Occurs (startMarker n) ([] : List Char) := by
      intro h
      have := occurs_length_le h
      simp at this
      exact hsm_ne this
    rw [if_neg (by simp)]
    rw [subAllAux_no_match (findMatch_eq_none_of_not_occurs hnil) k]
    simp
  · apply countOcc_eq_one (hstep3 c2)
    intro h
    have hnm : ∀ d ∈ ['\n'], d ∉ startMarker n := by
      intro d hd
      simp at hd
      rw [hd]
      exact nl_not_mem_startMarker hnl
    have h6 : Occurs (startMarker n) (c2 ++ '\n' :: endMarker n) := by
      have hsplit : ('\n' :: (c2 ++ '\n' :: endMarker n)) =
          ['\n'] ++ (c2 ++ '\n' :: endMarker n) := by simp
      rw [hsplit] at h
      exact occurs_append_all_notmem_left hsm_ne hnm h
    rcases occurs_append_head_notmem (by
        intro d hd
        have hdnl : d = '\n' := by
          simp only [List.head?] at hd
          exact (Option.some.injEq .. ▸ hd).symm
        rw [hdnl]
        exact nl_not_mem_startMarker hnl) h6 with h7 | h7
    · exact h4 h7
    · have hsplit : ('\n' :: endMarker n) = ['\n'] ++ endMarker n := by simp
      rw [hsplit] at h7
      have h8 := occurs_append_all_notmem_left hsm_ne hnm h7
      exact not_occurs_startMarker_endMarker hlt h8
  · have hzone := not_occurs_em_zone hlt hnl hA2 hstraddle h5
    have hshape2 : A ++ newBlock n c2 =
        ((A ++ startMarker n) ++ ('\n' :: c2 ++ ['\n'])) ++ endMarker n ++ [] := by
      rw [newBlock]
      simp
    have hsf : splitFirst (endMarker n) (A ++ newBlock n c2) =
        some ((A ++ startMarker n) ++ ('\n' :: c2 ++ ['\n']), []) := by
      rw [hshape2]
      exact splitFirst_at_boundary (noSelfOverlap_endMarker hlt) hzone
    apply countOcc_eq_one hsf
    intro h
    have := occurs_length_le h
    simp at this
    exact hem_ne this

theorem upsert_twice_eq {n c c2 d0 : List Char}
    (hlt : '<' ∉ n) (hnl : '\n' ∉ n) (hbsn : '\\' ∉ n) (hbsc2 : '\\' ∉ c2)
    (h1 : ¬ Occurs (startMarker n) d0) (h2 : ¬ Occurs (endMarker n) d0)
    (h3 : ¬ Occurs (endMarker n) c)
    (h4 : ¬ Occurs (startMarker n) c2) (h5 : ¬ Occurs (endMarker n) c2) :
    update_global_rule n c2 ((update_global_rule n c d0).getD d0) =
      some (d0 ++ (if (pyStrip d0).isEmpty then [] else "\n\n".data) ++ newBlock n c2) ∧
    countOcc (startMarker n)
      (d0 ++ (if (pyStrip d0).isEmpty then [] else "\n\n".data) ++ newBlock n c2) = 1 ∧
    countOcc (endMarker n)
      (d0 ++ (if (pyStrip d0).isEmpty then [] else "\n\n".data) ++ newBlock n c2) = 1 := by
  rw [upsert_no_match h1, Option.getD_some]
  by_cases hws : (pyStrip d0).isEmpty
  · rw [if_pos hws]
    have hall : ∀ ch ∈ d0 ++ ([] : List Char), isPySpace ch = true := by
      intro ch hc
      rw [List.append_nil] at hc
      exact all_ws_of_pyStrip_eq_nil (List.isEmpty_iff.mp hws) ch hc
    have hstraddle : ∀ p q, endMarker n = p ++ q → p ≠ [] → q ≠ [] →
        p <:+ (d0 ++ ([] : List Char)) → False := by
      intro p q hpq hp hq hpx
      rw [endMarker_cons] at hpq
      exact straddle_false_of_all_ws (by decide) hall p q hpq hp hq hpx
    have hA1 : ¬ Occurs (startMarker n) (d0 ++ ([] : List Char)) := by
      rw [List.append_nil]; exact h1
    have hA2 : ¬ Occurs (endMarker n) (d0 ++ ([] : List Char)) := by
      rw [List.append_nil]; exact h2
    obtain ⟨he, hcs, hce⟩ := upsert_twice_core hlt hnl hbsn hbsc2 hA1 hA2 hstraddle h3 h4 h5
    exact ⟨he, hcs, hce⟩
  · rw [if_neg hws]
    have hs0 : ("\n\n".data : List Char) = ['\n', '\n'] := rfl
    have hA1 : ¬ Occurs (startMarker n) (d0 ++ "\n\n".data) := by
      intro h
      apply h1
      apply occurs_append_all_notmem_right (startMarker_ne_nil n) ?_ h
      intro d hd
      rw [hs0] at hd
      simp at hd
      rw [hd]
      exact nl_not_mem_startMarker hnl
    have hA2 : ¬ Occurs (endMarker n) (d0 ++ "\n\n".data) := by
      intro h
      apply h2
      apply occurs_append_all_notmem_right (endMarker_ne_nil n) ?_ h
      intro d hd
      rw [hs0] at hd
      simp at hd
      rw [hd]
      exact nl_not_mem_endMarker hnl
    have hlast : (d0 ++ "\n\n".data).getLast? = some '\n' := by
      rw [List.getLast?_append_of_ne_nil d0 (by rw [hs0]; simp)]
      rfl
    have hstraddle : ∀ p q, endMarker n = p ++ q → p ≠ [] → q ≠ [] →
        p <:+ (d0 ++ "\n\n".data) → False :=
      straddle_false_of_last_nl (nl_not_mem_endMarker hnl) hlast
    obtain ⟨he, hcs, hce⟩ := upsert_twice_core hlt hnl hbsn hbsc2 hA1 hA2 hstraddle h3 h4 h5
    exact ⟨he, hcs, hce⟩

/-! ### Claim C1 -/

/-- C1 (amended): for a skill name containing no angle bracket, no newline and
no backslash, and contents and an initial document in which the name's markers
do not occur and whose new content contains no backslash, the global-rule
upsert of content c followed by the upsert of content c2 yields exactly the
original document followed by the separator and a single block for the name
with content c2: the result has exactly one start marker and one end marker
for the name, the block with content c2 occurs verbatim, and everything
outside that block is the untouched original document, so the relative order
of all other names' blocks is preserved.  The claim as originally stated,
quantified over all contents and documents, is refuted by
upsert_overwrite_counterexample: marker-shaped content duplicates markers,
and a backslash in the content is rewritten or rejected by re.sub's
replacement-escape processing. -/
theorem upsert_overwrite_single_block (n c c2 d0 : List Char)
    (hlt : '<' ∉ n) (hnl : '\n' ∉ n) (hbsn : '\\' ∉ n) (hbsc2 : '\\' ∉ c2)
    (h1 : occursB (startMarker n) d0 = false) (h2 : occursB (endMarker n) d0 = false)
    (h3 : occursB (endMarker n) c = false)
    (h4 : occursB (startMarker n) c2 = false) (h5 : occursB (endMarker n) c2 = false) :
    update_global_rule n c2 ((update_global_rule n c d0).getD d0) =
      some (d0 ++ (if (pyStrip d0).isEmpty then [] else "\n\n".data) ++ newBlock n c2) ∧
    countOcc (startMarker n)
      ((update_global_rule n c2 ((update_global_rule n c d0).getD d0)).getD []) = 1 ∧
    countOcc (endMarker n)
      ((update_global_rule n c2 ((update_global_rule n c d0).getD d0)).getD []) = 1 ∧
    occursB (newBlock n c2)
      ((update_global_rule n c2 ((update_global_rule n c d0).getD d0)).getD []) = true := by
  have h := upsert_twice_eq hlt hnl hbsn hbsc2 (occursB_false_iff.mp h1)
    (occursB_false_iff.mp h2) (occursB_false_iff.mp h3) (occursB_false_iff.mp h4)
    (occursB_false_iff.mp h5)
  refine ⟨h.1, ?_, ?_, ?_⟩
  · rw [h.1, Option.getD_some]
    exact h.2.1
  · rw [h.1, Option.getD_some]
    exact h.2.2
  · rw [h.1, Option.getD_some]
    apply occursB_iff.mpr
    exact ⟨d0 ++ (if (pyStrip d0).isEmpty then [] else "\n\n".data), [], by simp⟩

/-- Witness for C1 at a concrete name, contents and document. -/
theorem upsert_overwrite_single_block_witness :
    countOcc (startMarker "x".data)
      ((update_global_rule "x".data "b".data
        ((update_global_rule "x".data "a".data "intro".data).getD "intro".data)).getD []) = 1 ∧
    countOcc (endMarker "x".data)
      ((update_global_rule "x".data "b".data
        ((update_global_rule "x".data "a".data "intro".data).getD "intro".data)).getD []) = 1 := by
  have h := upsert_overwrite_single_block "x".data "a".data "b".data "intro".data
    (by decide) (by decide) (by decide) (by decide) (by decide) (by decide) (by decide)
    (by decide) (by decide)
  exact ⟨h.2.1, h.2.2.1⟩

/-- C1 counterexample: taking the new content to be the end-marker line
itself, the document produced by the two upserts holds two end markers for
the name instead of one, so it does not contain exactly one marker pair;
moreover a backslash-n in the new content is turned into a real newline by
re.sub's replacement-escape processing, and a backslash-d raises re.error,
so the block's content is not the given content verbatim; the claim as
stated over all contents is false on the code. -/
theorem upsert_overwrite_counterexample :
    countOcc (endMarker "x".data)
        ((update_global_rule "x".data (endMarker "x".data)
          ((update_global_rule "x".data "a".data []).getD [])).getD []) ≠ 1 ∧
    countOcc (endMarker "x".data)
        ((update_global_rule "x".data (endMarker "x".data)
          ((update_global_rule "x".data "a".data []).getD [])).getD []) = 2 ∧
    update_global_rule "x".data "a\\nb".data
        ((update_global_rule "x".data "c".data []).getD []) =
      some (newBlock "x".data "a\nb".data) ∧
    update_global_rule "x".data "a\\db".data
        ((update_global_rule "x".data "c".data []).getD []) = none := by decide

/-! ### Claim C6 -/

/-- C6: when the global rules document contains no start marker for the name,
the global-scope removal reports not-found and performs no write: the
document comes back byte-for-byte unchanged and the removed flag is false. -/
theorem remove_global_not_found (n doc : List Char)
    (h : occursB (startMarker n) doc = false) :
    remove_global_rule n doc = (doc, false) := by
  rw [remove_global_rule]
  simp only [h]
  simp

/-- Witness for C6 on a concrete document without the marker. -/
theorem remove_global_not_found_witness :
    remove_global_rule "x".data "hello".data = ("hello".data, false) :=
  remove_global_not_found "x".data "hello".data (by decide)

/-! ### Claim C9 -/

/-- C9: with no explicit source argument and an empty sources mapping, the
source selection of command_ingest reaches the uncaught IndexError raised by
indexing the first element of the empty key list, instead of a reported
error; with any configured source this branch is not taken, so the error
branch is reachable exactly on the empty configuration. -/
theorem select_source_empty_index_error :
    select_source none [] = SourceSel.indexError ∧
    ∀ k v rest, select_source none ((k, v) :: rest) ≠ SourceSel.indexError := by
  constructor
  · rfl
  · intro k v rest
    rw [select_source]
    cases hl : lookupSource ((k, v) :: rest) "anthropics".data with
    | some u => simp
    | none => simp

/-- Witness for C9: a one-entry configuration does not raise. -/
theorem select_source_empty_index_error_witness :
    select_source none [("a".data, "b".data)] ≠ SourceSel.indexError :=
  select_source_empty_index_error.2 "a".data "b".data []

/-! ### Claim C5 -/

/-- C5 (amended): when the document contains no block for the name, the
upsert appends the new block at the end, preceded by exactly one blank line
when the document still has content after stripping whitespace, and by
nothing when the stripped document is empty, in particular when the document
is empty.  The claim as stated, conditioned on the document being non-empty
rather than on its stripped content, is refuted by
upsert_separator_counterexample. -/
theorem upsert_append_separator (n c doc : List Char)
    (h : hasBlockB n doc = false) :
    ((pyStrip doc).isEmpty = false →
      update_global_rule n c doc = some (doc ++ '\n' :: '\n' :: newBlock n c)) ∧
    ((pyStrip doc).isEmpty = true →
      update_global_rule n c doc = some (doc ++ newBlock n c)) := by
  rw [update_global_rule]
  have hfm : findMatch (startMarker n) (endMarker n) doc = none := by
    rw [hasBlockB] at h
    cases hf : findMatch (startMarker n) (endMarker n) doc with
    | none => rfl
    | some x => rw [hf] at h; exact absurd h (by simp)
  simp only [hfm]
  constructor
  · intro hw
    rw [if_neg (by simp [hw])]
    simp
  · intro hw
    rw [if_pos hw]
    simp

/-- Witness for C5 on a concrete document with real content. -/
theorem upsert_append_separator_witness :
    update_global_rule "x".data "a".data "hello".data =
      some ("hello".data ++ '\n' :: '\n' :: newBlock "x".data "a".data) :=
  (upsert_append_separator "x".data "a".data "hello".data (by decide)).1 (by decide)

/-- C5 counterexample: a document holding a single space is non-empty, yet
the upsert appends the block with no blank-line separator, because the code
tests the stripped content for truthiness; the claim as stated is false. -/
theorem upsert_separator_counterexample :
    " ".data ≠ ([] : List Char) ∧
    update_global_rule "x".data "a".data " ".data ≠
      some (" ".data ++ '\n' :: '\n' :: newBlock "x".data "a".data) ∧
    update_global_rule "x".data "a".data " ".data =
      some (" ".data ++ newBlock "x".data "a".data) := by
  decide

/-! ### Claim C7 -/

theorem workspace_rule_content_none (name : List Char) (data : SkillData) :
    workspace_rule_content name data none =
      "---\ndescription: ".data ++
        ((fmGet data.frontmatter "description".data).getD ("Rule for ".data ++ name)) ++
        ("\n---\n\n".data ++ data.body) := by
  rw [workspace_rule_content]
  simp [List.append_assoc]

theorem workspace_rule_content_act (name : List Char) (data : SkillData) (a : List Char) :
    workspace_rule_content name data (some ⟨a, none⟩) =
      "---\ndescription: ".data ++
        ((fmGet data.frontmatter "description".data).getD ("Rule for ".data ++ name)) ++
        ("\nactivation:\n  type: ".data ++ (a ++ ("\n---\n\n".data ++ data.body))) := by
  rw [workspace_rule_content]
  simp [List.append_assoc]

theorem workspace_rule_content_glob (name : List Char) (data : SkillData)
    {p : List Char} (hp : p ≠ []) :
    workspace_rule_content name data (some ⟨"glob".data, some p⟩) =
      "---\ndescription: ".data ++
        ((fmGet data.frontmatter "description".data).getD ("Rule for ".data ++ name)) ++
        ("\nactivation:\n  type: glob\n  glob: ".data ++ (p ++ ("\n---\n\n".data ++ data.body))) := by
  rw [workspace_rule_content]
  have he : p.isEmpty = false := by
    cases p with
    | nil => exact absurd rfl hp
    | cons c cs => rfl
  simp [he, List.append_assoc]

/-- C7 (amended): ingesting a workspace rule with activation type glob and a
missing or empty glob pattern reports an error and aborts with no file
written; when a rule file is written with an activation option supplied, its
frontmatter holds an activation block with the type line, and a glob field is
present exactly when the activation type is glob with a pattern.  The claim
as stated, asserting an activation block in every written rule file, is
refuted by workspace_rule_activation_counterexample (no activation option
requested). -/
theorem ingest_workspace_rule_glob_spec :
    (∀ (name : List Char) (data : SkillData),
      ingest_workspace_rule (some "glob".data) none name data = none) ∧
    (∀ (name : List Char) (data : SkillData),
      ingest_workspace_rule (some "glob".data) (some []) name data = none) ∧
    (∀ (name : List Char) (data : SkillData) (p : List Char), p ≠ [] →
      ingest_workspace_rule (some "glob".data) (some p) name data =
        some (workspace_rule_content name data (some ⟨"glob".data, some p⟩)) ∧
      Occurs "activation:\n  type: glob\n".data
        (workspace_rule_content name data (some ⟨"glob".data, some p⟩)) ∧
      Occurs ("  glob: ".data ++ p ++ ['\n'])
        (workspace_rule_content name data (some ⟨"glob".data, some p⟩))) ∧
    (∀ (name : List Char) (data : SkillData) (a : List Char)
        (g : Option (List Char)), a ≠ "glob".data →
      ingest_workspace_rule (some a) g name data =
        some (workspace_rule_content name data (some ⟨a, none⟩)) ∧
      Occurs ("activation:\n  type: ".data ++ a ++ ['\n'])
        (workspace_rule_content name data (some ⟨a, none⟩))) := by
  refine ⟨fun name data => rfl, fun name data => rfl, ?_, ?_⟩
  · intro name data p hp
    have he : p.isEmpty = false := by
      cases p with
      | nil => exact absurd rfl hp
      | cons c cs => rfl
    refine ⟨?_, ?_, ?_⟩
    · simp only [ingest_workspace_rule, he]
      simp
    · rw [workspace_rule_content_glob name data hp]
      refine ⟨"---\ndescription: ".data ++
        ((fmGet data.frontmatter "description".data).getD ("Rule for ".data ++ name)) ++
        "\n".data,
        "  glob: ".data ++ (p ++ ("\n---\n\n".data ++ data.body)), ?_⟩
      simp [List.append_assoc]
    · rw [workspace_rule_content_glob name data hp]
      refine ⟨"---\ndescription: ".data ++
        ((fmGet data.frontmatter "description".data).getD ("Rule for ".data ++ name)) ++
        "\nactivation:\n  type: glob\n".data,
        "---\n\n".data ++ data.body, ?_⟩
      simp [List.append_assoc]
  · intro name data a g ha
    refine ⟨?_, ?_⟩
    · cases g with
      | none => simp only [ingest_workspace_rule, if_neg ha]
      | some p => simp only [ingest_workspace_rule, if_neg ha]
    · rw [workspace_rule_content_act name data a]
      refine ⟨"---\ndescription: ".data ++
        ((fmGet data.frontmatter "description".data).getD ("Rule for ".data ++ name)) ++
        "\n".data,
        "---\n\n".data ++ data.body, ?_⟩
      simp [List.append_assoc]

/-- Witness for C7: the error aborts on a concrete missing pattern, and a
concrete glob rule renders both activation lines. -/
theorem ingest_workspace_rule_glob_spec_witness :
    ingest_workspace_rule (some "glob".data) none "s".data ⟨[], "b".data⟩ = none ∧
    ingest_workspace_rule (some "glob".data) (some "*.js".data) "s".data ⟨[], "b".data⟩ =
      some (workspace_rule_content "s".data ⟨[], "b".data⟩
        (some ⟨"glob".data, some "*.js".data⟩)) := by
  refine ⟨ingest_workspace_rule_glob_spec.1 "s".data ⟨[], "b".data⟩, ?_⟩
  exact (ingest_workspace_rule_glob_spec.2.2.1 "s".data ⟨[], "b".data⟩ "*.js".data
    (by decide)).1

/-- C7 counterexample: with no activation option the rule file is written
with no activation block at all, refuting the claim that every written rule
file's frontmatter holds an activation block with a type field. -/
theorem workspace_rule_activation_counterexample :
    (ingest_workspace_rule none none "s".data ⟨[], "b".data⟩).isSome = true ∧
    occursB "activation:".data
      ((ingest_workspace_rule none none "s".data ⟨[], "b".data⟩).getD []) = false := by
  decide

/-! ### Claim C8 -/

theorem occurs_single_iff_mem {c : Char} {s : List Char} :
    Occurs [c] s ↔ c ∈ s := by
  constructor
  · intro h
    exact mem_of_occurs h (by simp)
  · intro h
    obtain ⟨l, r, h2⟩ := List.append_of_mem h
    exact ⟨l, r, by rw [h2]; simp⟩

theorem pySplitAllAux_none {sep s : List Char} (h : splitFirst sep s = none) :
    ∀ fuel, pySplitAllAux sep fuel s = [s] := by
  intro fuel
  cases fuel with
  | zero => rfl
  | succ k => simp only [pySplitAllAux, h]

theorem pySplitAllAux_ne_nil {sep : List Char} :
    ∀ (fuel : Nat) (s : List Char), pySplitAllAux sep fuel s ≠ [] := by
  intro fuel s
  cases fuel with
  | zero => simp [pySplitAllAux]
  | succ k =>
    simp only [pySplitAllAux]
    cases hsf : splitFirst sep s with
    | none => simp
    | some pq => simp

theorem sep_isEmpty_false {sep : List Char} (hsep : sep ≠ []) : sep.isEmpty = false := by
  cases sep with
  | nil => exact absurd rfl hsep
  | cons c cs => rfl

theorem splitFirst_nil_of_ne {sep : List Char} (hsep : sep ≠ []) :
    splitFirst sep [] = none := by
  simp [splitFirst, sep_isEmpty_false hsep]

theorem pySplitAllAux_eq {sep : List Char} (hsep : sep ≠ []) :
    ∀ (fuel : Nat) (s : List Char), s.length ≤ fuel →
      pySplitAllAux sep fuel s = pySplitAll sep s := by
  intro fuel
  induction fuel using Nat.strong_induction_on with
  | _ fuel ih =>
    intro s hs
    cases fuel with
    | zero =>
      have hs0 : s = [] := by
        cases s with
        | nil => rfl
        | cons c cs => simp at hs
      subst hs0
      rfl
    | succ k =>
      cases hsf : splitFirst sep s with
      | none =>
        rw [pySplitAll, pySplitAllAux_none hsf, pySplitAllAux_none hsf]
      | some pq =>
        obtain ⟨pre, post⟩ := pq
        have hsd := splitFirst_sound hsf
        have hsep1 : 1 ≤ sep.length := by
          cases sep with
          | nil => exact absurd rfl hsep
          | cons c cs => simp
        have hlen : post.length < s.length := by
          rw [hsd]
          simp
          omega
        have hs_ne : s ≠ [] := by
          intro h0
          rw [h0, splitFirst_nil_of_ne hsep] at hsf
          exact absurd hsf (by simp)
        obtain ⟨m, hm⟩ : ∃ m, s.length = m + 1 := by
          cases hsl : s with
          | nil => exact absurd hsl hs_ne
          | cons c cs => exact ⟨cs.length, rfl⟩
        rw [pySplitAll, hm]
        simp only [pySplitAllAux, hsf]
        have h1 : pySplitAllAux sep k post = pySplitAll sep post :=
          ih k (by omega) post (by omega)
        have h2 : pySplitAllAux sep m post = pySplitAll sep post :=
          ih m (by omega) post (by omega)
        rw [h1, h2]

theorem getLastD_indep {l : List (List Char)} (h : l ≠ []) (d1 d2 : List Char) :
    l.getLastD d1 = l.getLastD d2 := by
  cases l with
  | nil => exact absurd rfl h
  | cons x xs => rw [List.getLastD_cons, List.getLastD_cons]

theorem pySplitAll_getLast (s : List Char) :
    (pySplitAll ['/'] s).getLastD [] = specLastSegment s := by
  have hsep : (['/'] : List Char) ≠ [] := by simp
  suffices h : ∀ (fuel : Nat) (t : List Char), t.length ≤ fuel →
      (pySplitAll ['/'] t).getLastD [] = specLastSegment t by
    exact h s.length s le_rfl
  intro fuel
  induction fuel using Nat.strong_induction_on with
  | _ fuel ih =>
    intro t ht
    cases hsf : splitFirst ['/'] t with
    | none =>
      rw [pySplitAll, pySplitAllAux_none hsf]
      have hnm : '/' ∉ t := by
        intro hmem
        have := splitFirst_isSome_of_occurs (occurs_single_iff_mem.mpr hmem)
        rw [hsf] at this
        exact absurd this (by simp)
      rw [specLastSegment, List.takeWhile_eq_self_iff.mpr (by
        intro c hc
        simp only [decide_eq_true_eq]
        intro hceq
        exact hnm (by rw [← hceq]; exact List.mem_reverse.mp hc)), List.reverse_reverse]
      rfl
    | some pq =>
      obtain ⟨pre, post⟩ := pq
      have hsd := splitFirst_sound hsf
      have hlen : post.length < t.length := by
        rw [hsd]
        simp
        omega
      have ht_ne : t ≠ [] := by
        intro h0
        rw [h0, splitFirst_nil_of_ne hsep] at hsf
        exact absurd hsf (by simp)
      obtain ⟨m, hm⟩ : ∃ m, t.length = m + 1 := by
        cases hsl : t with
        | nil => exact absurd hsl ht_ne
        | cons c cs => exact ⟨cs.length, rfl⟩
      rw [pySplitAll, hm]
      simp only [pySplitAllAux, hsf]
      rw [pySplitAllAux_eq hsep m post (by omega)]
      rw [List.getLastD_cons]
      have hne2 : pySplitAll ['/'] post ≠ [] := by
        rw [pySplitAll]
        exact pySplitAllAux_ne_nil post.length post
      rw [getLastD_indep hne2 pre []]
      have hrec := ih post.length (by omega) post le_rfl
      rw [hrec]
      rw [specLastSegment, specLastSegment, hsd]
      rw [List.reverse_append, List.reverse_append]
      have hsl : (['/'] : List Char).reverse = ['/'] := rfl
      rw [hsl]
      by_cases hc : (List.takeWhile (fun c => decide (c ≠ '/')) post.reverse).length =
          post.reverse.length
      · have heq : List.takeWhile (fun c => decide (c ≠ '/')) post.reverse = post.reverse :=
          (List.takeWhile_prefix _).eq_of_length hc
        have hsl2 : List.takeWhile (fun c => decide (c ≠ '/')) (['/'] ++ pre.reverse) = [] := by
          simp [List.takeWhile_cons]
        rw [List.takeWhile_append, if_pos hc, hsl2, List.append_nil, heq]
      · rw [List.takeWhile_append, if_neg hc]

/-- C8 (amended): the default source name computed by command_add_source is
the URL's last path segment (its maximal slash-free suffix) with every
occurrence of .git removed, not only a trailing suffix.  The claim as stated,
stripping only a .git suffix and leaving interior occurrences alone, is
refuted by default_source_name_counterexample. -/
theorem default_source_name_removes_every_git (url : List Char) :
    default_source_name url = pyReplaceAll ".git".data [] (specLastSegment url) := by
  rw [default_source_name, pySplitAll_getLast]

/-- C8 counterexample: a last segment whose interior contains .git: the code
removes the interior occurrence while the claimed suffix-stripping rule would
leave the segment unchanged. -/
theorem default_source_name_counterexample :
    default_source_name "https://github.com/user/repo.github".data = "repohub".data ∧
    specStripGitSuffix (specLastSegment "https://github.com/user/repo.github".data) =
      "repo.github".data ∧
    "repohub".data ≠ "repo.github".data := by
  decide

/-! ### Claim C10 -/

theorem dropWhile_idem {p : Char → Bool} :
    ∀ l : List Char, List.dropWhile p (List.dropWhile p l) = List.dropWhile p l := by
  intro l
  induction l with
  | nil => rfl
  | cons c cs ih =>
    rw [List.dropWhile_cons]
    by_cases hp : p c
    · rw [if_pos hp]
      exact ih
    · rw [if_neg hp, List.dropWhile_cons, if_neg hp]

theorem head_dropWhile_false {p : Char → Bool} :
    ∀ {l c t}, List.dropWhile p l = c :: t → p c = false := by
  intro l
  induction l with
  | nil => intro c t h; exact absurd h (by simp)
  | cons a as ih =>
    intro c t h
    rw [List.dropWhile_cons] at h
    by_cases hp : p a
    · rw [if_pos hp] at h
      exact ih h
    · rw [if_neg hp] at h
      obtain ⟨h1, h2⟩ := List.cons.injEq .. ▸ h
      rw [← h1]
      cases hb : p a with
      | false => rfl
      | true => exact absurd hb hp

theorem pyRStrip_prefix (z : List Char) : pyRStrip z <+: z := by
  rw [pyRStrip]
  have h1 : List.dropWhile isPySpace z.reverse <:+ z.reverse := List.dropWhile_suffix _
  obtain ⟨t, ht⟩ := h1
  refine ⟨t.reverse, ?_⟩
  rw [← List.reverse_append, ht, List.reverse_reverse]

theorem pyStrip_idem (x : List Char) : pyStrip (pyStrip x) = pyStrip x := by
  rw [pyStrip, pyStrip]
  have hL : pyLStrip (pyRStrip (pyLStrip x)) = pyRStrip (pyLStrip x) := by
    cases hz : pyRStrip (pyLStrip x) with
    | nil => rfl
    | cons c t =>
      have hpre : pyRStrip (pyLStrip x) <+: pyLStrip x := pyRStrip_prefix _
      rw [hz] at hpre
      obtain ⟨u, hu⟩ := hpre
      have hdw : List.dropWhile isPySpace x = c :: (t ++ u) := by
        rw [pyLStrip] at hu
        rw [← hu]
        rfl
      have hc : isPySpace c = false := head_dropWhile_false hdw
      rw [pyLStrip, List.dropWhile_cons, if_neg (by rw [hc]; simp)]
  rw [hL]
  rw [pyRStrip, pyRStrip, List.reverse_reverse, dropWhile_idem]

theorem splitFirst_self_prefix {pat rest : List Char} (hpat : pat ≠ []) :
    splitFirst pat (pat ++ rest) = some ([], rest) := by
  obtain ⟨d, ds, hd⟩ := List.exists_cons_of_ne_nil hpat
  subst hd
  show splitFirst (d :: ds) ((d :: ds) ++ rest) = some ([], rest)
  have hshape : (d :: ds) ++ rest = d :: (ds ++ rest) := rfl
  rw [hshape]
  simp only [splitFirst]
  rw [if_pos (by
    rw [List.isPrefixOf_iff_prefix]
    exact ⟨rest, rfl⟩)]
  rw [← hshape, List.drop_left]

/-- C10 (amended): when the SKILL.md content starts with the three dashes and
at least one further delimiter occurrence follows (so the split yields three
parts), the parsed body carries no leading or trailing whitespace (it equals
its own strip); otherwise the parsed body is the entire content, unstripped.
The claim as stated, demanding two further delimiters before stripping
applies, is refuted by parse_body_strip_counterexample. -/
theorem parse_body_strip (content : List Char) :
    ("---".data.isPrefixOf content = true →
      occursB "---".data (content.drop 3) = true →
      (parse_skill_md content).body = pyStrip (parse_skill_md content).body) ∧
    (("---".data.isPrefixOf content && occursB "---".data (content.drop 3)) = false →
      (parse_skill_md content).body = content) := by
  constructor
  · intro hp ho
    obtain ⟨t, ht⟩ := List.isPrefixOf_iff_prefix.mp hp
    have hdrop : content.drop 3 = t := by
      rw [← ht]
      exact List.drop_left "---".data t
    rw [hdrop] at ho
    rw [occursB] at ho
    rw [Option.isSome_iff_exists] at ho
    obtain ⟨pq, hpq⟩ := ho
    obtain ⟨p2, r2⟩ := pq
    have hps : pySplit2 "---".data content = [[], p2, r2] := by
      rw [pySplit2, ← ht, splitFirst_self_prefix (by decide)]
      simp only [hpq]
    rw [parse_skill_md, if_pos hp, hps]
    exact (pyStrip_idem r2).symm
  · intro hb
    rcases Bool.and_eq_false_iff.mp hb with h | h
    · rw [parse_skill_md, if_neg (by rw [h]; simp)]
    · by_cases hp : "---".data.isPrefixOf content
      · obtain ⟨t, ht⟩ := List.isPrefixOf_iff_prefix.mp hp
        have hdrop : content.drop 3 = t := by
          rw [← ht]
          exact List.drop_left "---".data t
        rw [hdrop] at h
        have hsf : splitFirst "---".data t = none := by
          rw [occursB] at h
          cases hx : splitFirst "---".data t with
          | none => rfl
          | some pq => rw [hx] at h; exact absurd h (by simp)
        have hps : pySplit2 "---".data content = [[], t] := by
          rw [pySplit2, ← ht, splitFirst_self_prefix (by decide)]
          simp only [hsf]
        rw [parse_skill_md, if_pos hp, hps]
      · rw [parse_skill_md, if_neg hp]

/-- Witness for C10 on a concrete SKILL.md content with surrounding blanks. -/
theorem parse_body_strip_witness :
    (parse_skill_md "---\na: b\n--- body ".data).body =
      pyStrip (parse_skill_md "---\na: b\n--- body ".data).body :=
  (parse_body_strip "---\na: b\n--- body ".data).1 (by decide) (by decide)

/-- C10 counterexample: a content with the leading dashes and exactly one
further delimiter occurrence, fewer than the two the claim demands, is
nevertheless parsed with a stripped body different from the content, so the
claim's fallback clause (body equals the file content exactly) is false. -/
theorem parse_body_strip_counterexample :
    "---".data.isPrefixOf "---a---b ".data = true ∧
    countOcc "---".data ("---a---b ".data.drop 3) = 1 ∧
    (parse_skill_md "---a---b ".data).body ≠ "---a---b ".data ∧
    (parse_skill_md "---a---b ".data).body = "b".data := by
  decide

/-! ### Claim C3 -/

/-- C3: parsing a SKILL.md whose frontmatter maps description to X and then
rendering the result as a workflow yields a file that contains the line
holding description and X, and contains the parsed body verbatim. -/
theorem workflow_roundtrip (content X skill_name : List Char)
    (h : fmGet (parse_skill_md content).frontmatter "description".data = some X) :
    Occurs ("description: ".data ++ X ++ ['\n'])
      (workflow_content skill_name (parse_skill_md content)) ∧
    Occurs (parse_skill_md content).body
      (workflow_content skill_name (parse_skill_md content)) := by
  have hw : workflow_content skill_name (parse_skill_md content) =
      "---\ndescription: ".data ++
        (X ++ ("\n---\n".data ++ ((parse_skill_md content).body ++ "\n".data))) := by
    rw [workflow_content, h]
    simp [List.append_assoc]
  constructor
  · refine ⟨"---\n".data,
      "---\n".data ++ ((parse_skill_md content).body ++ "\n".data), ?_⟩
    rw [hw]
    simp only [List.append_assoc]
    rfl
  · refine ⟨"---\ndescription: ".data ++ (X ++ "\n---\n".data), "\n".data, ?_⟩
    rw [hw]
    simp only [List.append_assoc]

/-- Witness for C3 on a concrete SKILL.md. -/
theorem workflow_roundtrip_witness :
    Occurs ("description: ".data ++ "hi".data ++ ['\n'])
      (workflow_content "sk".data
        (parse_skill_md "---\ndescription: hi\n---\nbody".data)) ∧
    Occurs (parse_skill_md "---\ndescription: hi\n---\nbody".data).body
      (workflow_content "sk".data
        (parse_skill_md "---\ndescription: hi\n---\nbody".data)) :=
  workflow_roundtrip "---\ndescription: hi\n---\nbody".data "hi".data "sk".data (by decide)

/-! ### Claim C4 -/

theorem fmGet_foldl_lines (k : List Char) :
    ∀ (lines : List (List Char)) (acc : List (List Char × List Char)),
      fmGet (lines.foldl (fun acc line =>
        match splitFirst [':'] line with
        | none => acc
        | some (kk, vv) => acc ++ [(pyStrip kk, pyStrip vv)]) acc) k =
      (match specFMLookup lines k with
       | some v => some v
       | none => fmGet acc k) := by
  intro lines
  induction lines with
  | nil => intro acc; rfl
  | cons line rest ih =>
    intro acc
    rw [List.foldl_cons, ih]
    rw [specFMLookup]
    cases hr : specFMLookup rest k with
    | some v => rfl
    | none =>
      cases hl : splitFirst [':'] line with
      | none => simp only [hl]
      | some kv =>
        obtain ⟨kk, vv⟩ := kv
        simp only [hl]
        rw [fmGet, List.foldl_append]
        simp only [List.foldl_cons, List.foldl_nil]
        rw [← fmGet]
        by_cases hk : pyStrip kk = k
        · rw [if_pos hk, if_pos hk]
        · rw [if_neg hk, if_neg hk]

/-- C4 (amended): frontmatter is extracted exactly when the content starts
with the characters of the delimiter (not necessarily a whole delimiter
line): without that prefix, or with no further delimiter occurrence, the
whole content becomes the body with an empty frontmatter; with the prefix
and a further delimiter, the content splits at the first two delimiter
occurrences into an empty head, the frontmatter region and the body; and the
frontmatter mapping sends a key to the stripped right part of the last line
of the region whose stripped left-of-first-colon part is that key, ignoring
lines without a colon.  The claim as stated, restricting extraction to a
leading delimiter line, is refuted by parse_frontmatter_counterexample. -/
theorem parse_skill_md_spec :
    (∀ content : List Char, "---".data.isPrefixOf content = false →
      parse_skill_md content = ⟨[], content⟩) ∧
    (∀ content : List Char, "---".data.isPrefixOf content = true →
      occursB "---".data (content.drop 3) = false →
      parse_skill_md content = ⟨[], content⟩) ∧
    (∀ A B : List Char, occursB "---".data (A ++ "--".data) = false →
      parse_skill_md ("---".data ++ A ++ "---".data ++ B) =
        ⟨parseFrontmatterLines A, pyStrip B⟩) ∧
    (∀ A k : List Char,
      fmGet (parseFrontmatterLines A) k = specFMLookup (pySplitlines A) k) := by
  refine ⟨?_, ?_, ?_, ?_⟩
  · intro content hp
    rw [parse_skill_md, if_neg (by rw [hp]; simp)]
  · intro content hp ho
    obtain ⟨t, ht⟩ := List.isPrefixOf_iff_prefix.mp hp
    have hdrop : content.drop 3 = t := by
      rw [← ht]
      exact List.drop_left "---".data t
    rw [hdrop] at ho
    have hsf : splitFirst "---".data t = none := by
      rw [occursB] at ho
      cases hx : splitFirst "---".data t with
      | none => rfl
      | some pq => rw [hx] at ho; exact absurd ho (by simp)
    have hps : pySplit2 "---".data content = [[], t] := by
      rw [pySplit2, ← ht, splitFirst_self_prefix (by decide)]
      simp only [hsf]
    rw [parse_skill_md, if_pos hp, hps]
  · intro A B hno
    have hno2 : ¬ Occurs "---".data (A ++ "--".data) := occursB_false_iff.mp hno
    have hp : "---".data.isPrefixOf ("---".data ++ A ++ "---".data ++ B) := by
      rw [List.isPrefixOf_iff_prefix]
      exact ⟨A ++ "---".data ++ B, by simp [List.append_assoc]⟩
    have hmin : ∀ l r, A ++ "---".data ++ B = l ++ "---".data ++ r →
        A.length ≤ l.length := by
      intro l r hE
      by_contra hlt
      push_neg at hlt
      rcases early_occurrence_cases hE hlt with hocc | ⟨j, hj0, hjlt, hsfx, hov⟩
      · exact hno2 (occurs_append_right_intro "--".data hocc)
      · have hA : A = A.take l.length ++ A.drop l.length :=
          (List.take_append_drop l.length A).symm
        have hjlt3 : j < 3 := hjlt
        interval_cases j
        · apply hno2
          have h1 : ("---".data).take 1 = ['-'] := rfl
          rw [h1] at hsfx
          refine ⟨A.take l.length, [], ?_⟩
          rw [List.append_nil]
          conv_lhs => rw [hA, hsfx]
          simp [List.append_assoc]
        · apply hno2
          have h2 : ("---".data).take 2 = ['-', '-'] := rfl
          rw [h2] at hsfx
          refine ⟨A.take l.length, ['-'], ?_⟩
          conv_lhs => rw [hA, hsfx]
          simp [List.append_assoc]
    have hsf2 : splitFirst "---".data (A ++ "---".data ++ B) = some (A, B) :=
      splitFirst_boundary_min hmin
    have hps : pySplit2 "---".data ("---".data ++ A ++ "---".data ++ B) =
        [[], A, B] := by
      have hshape : "---".data ++ A ++ "---".data ++ B =
          "---".data ++ (A ++ "---".data ++ B) := by
        simp [List.append_assoc]
      rw [pySplit2, hshape, splitFirst_self_prefix (by decide)]
      simp only [hsf2]
    rw [parse_skill_md, if_pos hp, hps]
  · intro A k
    rw [parseFrontmatterLines, pySplitlines]
    rw [fmGet_foldl_lines k (pySplitlinesAux [] A) []]
    cases hr : specFMLookup (pySplitlinesAux [] A) k with
    | some v => rfl
    | none => rfl

/-- Witness for C4 on a concrete content with the frontmatter shape. -/
theorem parse_skill_md_spec_witness :
    parse_skill_md ("---".data ++ "\na: b\n".data ++ "---".data ++ " body ".data) =
      ⟨parseFrontmatterLines "\na: b\n".data, pyStrip " body ".data⟩ :=
  parse_skill_md_spec.2.2.1 "\na: b\n".data " body ".data (by decide)

/-- C4 counterexample: a content whose first line is not a bare delimiter
line still has frontmatter extracted, because the code checks only the
three-character prefix; the claim's delimiter-line restriction is false. -/
theorem parse_frontmatter_counterexample :
    (pySplitlines "---x: y---body".data).head? ≠ some "---".data ∧
    (parse_skill_md "---x: y---body".data).frontmatter ≠ [] ∧
    fmGet (parse_skill_md "---x: y---body".data).frontmatter "x".data =
      some "y".data := by
  decide

/-! ### Claim C2: structure of assembled documents -/

theorem not_occurs_nil {pat : List Char} (hpat : pat ≠ []) :
    ¬ Occurs pat ([] : List Char) := by
  intro h
  have := occurs_length_le h
  simp at this
  exact hpat this

theorem newBlock_cons (n c : List Char) :
    newBlock n c = '<' :: ("!-- ANTHROPIC_SKILL_START: ".data ++ n ++ " -->".data ++
      ('\n' :: (c ++ '\n' :: endMarker n))) := by
  rw [newBlock, startMarker_cons]
  simp

theorem newBlock_concat_em (n c : List Char) :
    newBlock n c = (startMarker n ++ ('\n' :: c ++ ['\n'])) ++ endMarker n := by
  rw [newBlock]
  simp

theorem newBlock_ne_nil (n c : List Char) : newBlock n c ≠ [] := by
  rw [newBlock_cons]
  simp

theorem newBlock_getLast? (n c : List Char) :
    (newBlock n c).getLast? = some '>' := by
  rw [newBlock_concat_em, List.getLast?_append_of_ne_nil _ (endMarker_ne_nil n)]
  exact endMarker_getLast? n

theorem assemble_cons {p : List Char × List Char}
    {rest : List (List Char × List Char)} (h : rest ≠ []) :
    assemble (p :: rest) = newBlock p.1 p.2 ++ '\n' :: '\n' :: assemble rest := by
  cases rest with
  | nil => exact absurd rfl h
  | cons q rest2 => rfl

theorem assemble_head_cons {l : List (List Char × List Char)} (h : l ≠ []) :
    ∃ t, assemble l = '<' :: t := by
  cases l with
  | nil => exact absurd rfl h
  | cons p rest =>
    cases rest with
    | nil =>
      rw [show assemble [p] = newBlock p.1 p.2 from rfl, newBlock_cons]
      exact ⟨_, rfl⟩
    | cons q rest2 =>
      rw [assemble_cons (by simp)]
      rw [newBlock_cons]
      exact ⟨_, rfl⟩

theorem assemble_ne_nil {l : List (List Char × List Char)} (h : l ≠ []) :
    assemble l ≠ [] := by
  obtain ⟨t, ht⟩ := assemble_head_cons h
  rw [ht]
  simp

theorem assemble_getLast? {l : List (List Char × List Char)} (h : l ≠ []) :
    (assemble l).getLast? = some '>' := by
  induction l with
  | nil => exact absurd rfl h
  | cons p rest ih =>
    cases hr : rest with
    | nil => exact newBlock_getLast? p.1 p.2
    | cons q rest2 =>
      have hrne : rest ≠ [] := by rw [hr]; simp
      rw [← hr, assemble_cons hrne]
      have hsplit : newBlock p.1 p.2 ++ '\n' :: '\n' :: assemble rest =
          (newBlock p.1 p.2 ++ ['\n', '\n']) ++ assemble rest := by simp
      rw [hsplit, List.getLast?_append_of_ne_nil _ (assemble_ne_nil hrne)]
      exact ih hrne

theorem assemble_append {xs ys : List (List Char × List Char)}
    (hx : xs ≠ []) (hy : ys ≠ []) :
    assemble (xs ++ ys) = assemble xs ++ '\n' :: '\n' :: assemble ys := by
  induction xs with
  | nil => exact absurd rfl hx
  | cons p rest ih =>
    cases hr : rest with
    | nil =>
      rw [List.cons_append, List.nil_append, assemble_cons hy]
      rfl
    | cons q rest2 =>
      rw [List.cons_append, assemble_cons (by simp), assemble_cons (by simp)]
      rw [hr] at ih
      rw [ih (by simp)]
      simp [List.append_assoc]

theorem occurs_block_in_assemble {l : List (List Char × List Char)}
    {p : List Char × List Char} (hp : p ∈ l) :
    Occurs (newBlock p.1 p.2) (assemble l) := by
  induction l with
  | nil => exact absurd hp (by simp)
  | cons q rest ih =>
    rcases List.mem_cons.mp hp with h | h
    · subst h
      cases hr : rest with
      | nil =>
        exact ⟨[], [], by rw [show assemble [p] = newBlock p.1 p.2 from rfl]; simp⟩
      | cons a b =>
        rw [assemble_cons (by simp)]
        exact ⟨[], '\n' :: '\n' :: assemble (a :: b), by simp⟩
    · have hrest : rest ≠ [] := by
        intro h0
        rw [h0] at h
        exact absurd h (by simp)
      have h2 : Occurs (newBlock p.1 p.2) (['\n', '\n'] ++ assemble rest) :=
        occurs_append_left_intro ['\n', '\n'] (ih h)
      have h3 : ('\n' :: '\n' :: assemble rest) = ['\n', '\n'] ++ assemble rest := rfl
      rw [assemble_cons hrest, h3]
      exact occurs_append_left_intro _ h2

theorem not_occurs_assemble {pat : List Char} (hpat : pat ≠ []) (hnl : '\n' ∉ pat) :
    ∀ l : List (List Char × List Char),
      (∀ p ∈ l, ¬ Occurs pat (newBlock p.1 p.2)) → ¬ Occurs pat (assemble l) := by
  intro l
  induction l with
  | nil =>
    intro _ h
    exact not_occurs_nil hpat h
  | cons q rest ih =>
    intro hblocks h
    cases hr : rest with
    | nil =>
      rw [hr] at h
      exact hblocks q (List.mem_cons_self q rest) h
    | cons a b =>
      rw [assemble_cons (by rw [hr]; simp)] at h
      rcases occurs_append_head_notmem (by
          intro d hd
          have hdnl : d = '\n' := by
            simp only [List.head?] at hd
            exact (Option.some.injEq .. ▸ hd).symm
          rw [hdnl]
          exact hnl) h with h1 | h1
      · exact hblocks q (List.mem_cons_self q rest) h1
      · have h2 : Occurs pat (assemble rest) := by
          have h3 : ('\n' :: '\n' :: assemble rest) = ['\n', '\n'] ++ assemble rest := rfl
          rw [h3] at h1
          exact occurs_append_all_notmem_left hpat (by
            intro d hd
            simp at hd
            rw [hd]
            exact hnl) h1
        exact ih (fun p hp => hblocks p (List.mem_cons_of_mem q hp)) h2

theorem fresh_startMarker_assemble {n : List Char}
    {l : List (List Char × List Char)} (hn : '<' ∉ n ∧ '>' ∉ n ∧ '\n' ∉ n)
    (hnames : ∀ p ∈ l, '<' ∉ p.1 ∧ '>' ∉ p.1 ∧ '\n' ∉ p.1)
    (hclean : ∀ p ∈ l, ¬ Occurs (startMarker n) p.2)
    (hnotin : n ∉ l.map Prod.fst) :
    ¬ Occurs (startMarker n) (assemble l) := by
  apply not_occurs_assemble (startMarker_ne_nil n) (nl_not_mem_startMarker hn.2.2)
  intro p hp
  apply not_occurs_newBlock (startMarker_ne_nil n) (nl_not_mem_startMarker hn.2.2)
  · intro h
    have heq := occurs_startMarker_startMarker (hnames p hp).1 hn.2.1 (hnames p hp).2.1 h
    apply hnotin
    rw [heq]
    exact List.mem_map_of_mem Prod.fst hp
  · exact hclean p hp
  · exact not_occurs_startMarker_endMarker (hnames p hp).1

theorem fresh_endMarker_assemble {n : List Char}
    {l : List (List Char × List Char)} (hn : '<' ∉ n ∧ '>' ∉ n ∧ '\n' ∉ n)
    (hnames : ∀ p ∈ l, '<' ∉ p.1 ∧ '>' ∉ p.1 ∧ '\n' ∉ p.1)
    (hclean : ∀ p ∈ l, ¬ Occurs (endMarker n) p.2)
    (hnotin : n ∉ l.map Prod.fst) :
    ¬ Occurs (endMarker n) (assemble l) := by
  apply not_occurs_assemble (endMarker_ne_nil n) (nl_not_mem_endMarker hn.2.2)
  intro p hp
  apply not_occurs_newBlock (endMarker_ne_nil n) (nl_not_mem_endMarker hn.2.2)
  · exact not_occurs_endMarker_startMarker (hnames p hp).1
  · exact hclean p hp
  · intro h
    have heq := occurs_endMarker_endMarker (hnames p hp).1 hn.2.1 (hnames p hp).2.1 h
    apply hnotin
    rw [heq]
    exact List.mem_map_of_mem Prod.fst hp

/-! ### Collapse of newline runs is the identity on well-formed documents -/

theorem collapseNLAux_eq_self :
    ∀ (fuel : Nat) (s : List Char), s.length ≤ fuel →
      ¬ Occurs ['\n', '\n', '\n'] s → collapseNLAux fuel s = s := by
  intro fuel
  induction fuel with
  | zero =>
    intro s hs _
    rfl
  | succ k ih =>
    intro s hs h
    simp only [collapseNLAux]
    split
    · next rest => exact absurd ⟨[], rest, rfl⟩ h
    · next c rest hne =>
      have hrest : ¬ Occurs ['\n', '\n', '\n'] rest := by
        intro ho
        apply h
        have : (c :: rest) = [c] ++ rest := rfl
        exact occurs_append_left_intro [c] ho
      have hlen : rest.length ≤ k := by
        have : (c :: rest).length = rest.length + 1 := rfl
        omega
      rw [ih rest hlen hrest]
    · rfl

theorem collapseNL_eq_self {s : List Char}
    (h : ¬ Occurs ['\n', '\n', '\n'] s) : collapseNL s = s :=
  collapseNLAux_eq_self s.length s le_rfl h

theorem nl_mem_of_mem_trip {c : Char} (h : c ∈ (['\n', '\n', '\n'] : List Char)) :
    c = '\n' := by
  simpa using h

theorem not_occurs_trip_of_nl_free {x : List Char} (hx : '\n' ∉ x) :
    ¬ Occurs ['\n', '\n', '\n'] x := by
  apply not_occurs_of_disjoint (by simp)
  intro c hc hmem
  rw [nl_mem_of_mem_trip hmem] at hc
  exact hx hc

theorem not_occurs_trip_newBlock {n c : List Char} (hnl : '\n' ∉ n)
    (hcontent : ¬ Occurs ['\n', '\n', '\n'] ('\n' :: c ++ ['\n'])) :
    ¬ Occurs ['\n', '\n', '\n'] (newBlock n c) := by
  intro h
  rw [newBlock_concat_em] at h
  rcases occurs_append_head_notmem (by
      intro d hd
      obtain ⟨t, ht⟩ : ∃ t, endMarker n = '<' :: t := ⟨_, endMarker_cons n⟩
      rw [ht] at hd
      have hdlt : d = '<' := by
        simp only [List.head?] at hd
        exact (Option.some.injEq .. ▸ hd).symm
      rw [hdlt]
      intro hmem
      exact absurd (nl_mem_of_mem_trip hmem) (by decide)) h with h1 | h1
  · rcases occurs_append_last_notmem (by
        intro d hd
        rw [startMarker_getLast? n] at hd
        have hdgt : d = '>' := Option.some.injEq .. ▸ hd.symm
        rw [hdgt]
        intro hmem
        exact absurd (nl_mem_of_mem_trip hmem) (by decide)) h1 with h2 | h2
    · exact not_occurs_trip_of_nl_free (nl_not_mem_startMarker hnl) h2
    · exact hcontent h2
  · exact not_occurs_trip_of_nl_free (nl_not_mem_endMarker hnl) h1

theorem not_occurs_trip_assemble {l : List (List Char × List Char)}
    (hnames : ∀ p ∈ l, '\n' ∉ p.1)
    (htrip : ∀ p ∈ l, ¬ Occurs ['\n', '\n', '\n'] ('\n' :: p.2 ++ ['\n'])) :
    ¬ Occurs ['\n', '\n', '\n'] (assemble l) := by
  induction l with
  | nil => exact not_occurs_nil (by simp)
  | cons q rest ih =>
    intro h
    cases hr : rest with
    | nil =>
      rw [hr] at h
      exact not_occurs_trip_newBlock (hnames q (List.mem_cons_self q rest))
        (htrip q (List.mem_cons_self q rest)) h
    | cons a b =>
      rw [assemble_cons (by rw [hr]; simp)] at h
      rcases occurs_append_last_notmem (by
          intro d hd
          rw [newBlock_getLast? q.1 q.2] at hd
          have hdgt : d = '>' := Option.some.injEq .. ▸ hd.symm
          rw [hdgt]
          intro hmem
          exact absurd (nl_mem_of_mem_trip hmem) (by decide)) h with h1 | h1
      · exact not_occurs_trip_newBlock (hnames q (List.mem_cons_self q rest))
          (htrip q (List.mem_cons_self q rest)) h1
      · obtain ⟨t, ht⟩ := assemble_head_cons (by rw [hr]; simp : rest ≠ [])
        have hshape : ('\n' :: '\n' :: assemble rest) = ['\n', '\n'] ++ assemble rest := rfl
        rw [hshape, ht] at h1
        rcases occurs_append_head_notmem (by
            intro d hd
            have hdlt : d = '<' := by
              simp only [List.head?] at hd
              exact (Option.some.injEq .. ▸ hd).symm
            rw [hdlt]
            intro hmem
            exact absurd (nl_mem_of_mem_trip hmem) (by decide)) h1 with h2 | h2
        · have := occurs_length_le h2
          simp at this
        · rw [← ht] at h2
          exact ih (fun p hp => hnames p (List.mem_cons_of_mem q hp))
            (fun p hp => htrip p (List.mem_cons_of_mem q hp)) h2

theorem buildDoc_eq_assemble :
    ∀ l : List (List Char × List Char),
      (∀ p ∈ l, '<' ∉ p.1 ∧ '>' ∉ p.1 ∧ '\n' ∉ p.1) →
      (l.map Prod.fst).Nodup →
      (∀ p ∈ l, ∀ q ∈ l, ¬ Occurs (startMarker p.1) q.2 ∧ ¬ Occurs (endMarker p.1) q.2) →
      buildDoc l = assemble l := by
  intro l
  induction l using List.reverseRecOn with
  | nil => intro _ _ _; rfl
  | append_singleton xs x ih =>
    intro hnames hdist hclean
    have hx_mem : x ∈ xs ++ [x] := by simp
    have hxs_sub : ∀ p ∈ xs, p ∈ xs ++ [x] := by
      intro p hp
      simp [hp]
    have hbd : buildDoc (xs ++ [x]) =
        (update_global_rule x.1 x.2 (buildDoc xs)).getD (buildDoc xs) := by
      rw [buildDoc, List.foldl_append]
      rfl
    have hIH : buildDoc xs = assemble xs :=
      ih (fun p hp => hnames p (hxs_sub p hp))
        (by rw [List.map_append] at hdist; exact (List.nodup_append.mp hdist).1)
        (fun p hp q hq => hclean p (hxs_sub p hp) q (hxs_sub q hq))
    rw [hbd, hIH]
    have hnotin : x.1 ∉ xs.map Prod.fst := by
      rw [List.map_append] at hdist
      have h3 := (List.nodup_append.mp hdist).2.2
      intro hmem
      exact h3 hmem (by simp)
    have hfresh : ¬ Occurs (startMarker x.1) (assemble xs) :=
      fresh_startMarker_assemble (hnames x hx_mem)
        (fun p hp => hnames p (hxs_sub p hp))
        (fun p hp => (hclean x hx_mem p (hxs_sub p hp)).1)
        hnotin
    rw [upsert_no_match hfresh, Option.getD_some]
    cases hxs : xs with
    | nil =>
      show [] ++ (if (pyStrip (assemble [])).isEmpty then [] else "\n\n".data) ++
        newBlock x.1 x.2 = assemble [x]
      rw [show assemble ([] : List (List Char × List Char)) = [] from rfl]
      rw [show pyStrip [] = [] from rfl]
      simp
      rfl
    | cons a b =>
      rw [← hxs]
      have hxs_ne : xs ≠ [] := by rw [hxs]; simp
      have hne := assemble_ne_nil hxs_ne
      have hstrip : pyStrip (assemble xs) = assemble xs := by
        obtain ⟨t, ht⟩ := assemble_head_cons hxs_ne
        apply pyStrip_eq_self
        · intro ch hch
          rw [ht] at hch
          have hch2 : ch = '<' := by
            simp only [List.head?] at hch
            exact (Option.some.injEq .. ▸ hch).symm
          rw [hch2]
          rfl
        · intro ch hch
          rw [assemble_getLast? hxs_ne] at hch
          have hch2 : ch = '>' := Option.some.injEq .. ▸ hch.symm
          rw [hch2]
          rfl
      rw [hstrip, if_neg (by rw [List.isEmpty_iff]; exact hne)]
      rw [assemble_append hxs_ne (by simp)]
      have hx1 : assemble [x] = newBlock x.1 x.2 := rfl
      rw [hx1]
      simp [List.append_assoc]

theorem remove_core (n cn pre post : List Char)
    (hn : '<' ∉ n ∧ '>' ∉ n ∧ '\n' ∉ n)
    (hpre_sm : ¬ Occurs (startMarker n) pre)
    (hcn : ¬ Occurs (endMarker n) cn)
    (hpost_sm : ¬ Occurs (startMarker n) (post.dropWhile isPySpace)) :
    occursB (startMarker n) (pre ++ newBlock n cn ++ post) = true ∧
    subAllAux (startMarker n) (endMarker n) [] true
        (pre ++ newBlock n cn ++ post).length (pre ++ newBlock n cn ++ post) =
      pre ++ post.dropWhile isPySpace := by
  have hshape : pre ++ newBlock n cn ++ post =
      pre ++ startMarker n ++ ('\n' :: (cn ++ '\n' :: (endMarker n ++ post))) := by
    rw [newBlock]
    simp
  have hsf : splitFirst (startMarker n) (pre ++ newBlock n cn ++ post) =
      some (pre, '\n' :: (cn ++ '\n' :: (endMarker n ++ post))) := by
    rw [hshape]
    exact splitFirst_at_boundary (noSelfOverlap_startMarker hn.1) hpre_sm
  have hZshape : ('\n' :: (cn ++ '\n' :: (endMarker n ++ post))) =
      ('\n' :: cn ++ ['\n']) ++ endMarker n ++ post := by
    simp
  have hsf2 : splitFirst (endMarker n) ('\n' :: (cn ++ '\n' :: (endMarker n ++ post))) =
      some ('\n' :: cn ++ ['\n'], post) := by
    rw [hZshape]
    exact splitFirst_at_boundary (noSelfOverlap_endMarker hn.1)
      (not_occurs_em_between hn.2.2 hcn)
  have hfm : findMatch (startMarker n) (endMarker n) (pre ++ newBlock n cn ++ post) =
      some (pre, '\n' :: cn ++ ['\n'], post) := by
    simp only [findMatch, hsf, hsf2]
  constructor
  · rw [occursB, hsf]
    rfl
  · have hpos : 0 < (pre ++ newBlock n cn ++ post).length := by
      rw [newBlock]
      simp
    obtain ⟨k, hk⟩ : ∃ k, (pre ++ newBlock n cn ++ post).length = k + 1 :=
      ⟨(pre ++ newBlock n cn ++ post).length - 1, by omega⟩
    rw [hk, subAllAux_step k hfm]
    rw [if_pos rfl]
    rw [subAllAux_no_match (findMatch_eq_none_of_not_occurs hpost_sm) k]
    simp

theorem remove_global_found {n doc res : List Char}
    (hocc : occursB (startMarker n) doc = true)
    (hsub : subAllAux (startMarker n) (endMarker n) [] true doc.length doc = res) :
    remove_global_rule n doc = (collapseNL (pyStrip res ++ ['\n']), true) := by
  rw [remove_global_rule]
  simp only [hocc, hsub, if_true]

theorem dropWhile_nlnl_assemble {l : List (List Char × List Char)} (h : l ≠ []) :
    List.dropWhile isPySpace ('\n' :: '\n' :: assemble l) = assemble l := by
  obtain ⟨t, ht⟩ := assemble_head_cons h
  rw [List.dropWhile_cons, if_pos (by decide), List.dropWhile_cons, if_pos (by decide),
    ht, List.dropWhile_cons, if_neg (by decide), ← ht]

theorem assemble_head_not_space {l : List (List Char × List Char)} (h : l ≠ []) :
    ∀ c, (assemble l).head? = some c → isPySpace c = false := by
  obtain ⟨t, ht⟩ := assemble_head_cons h
  intro c hc
  rw [ht, List.head?_cons] at hc
  obtain rfl := Option.some.inj hc
  decide

theorem assemble_last_not_space {l : List (List Char × List Char)} (h : l ≠ []) :
    ∀ c, (assemble l).getLast? = some c → isPySpace c = false := by
  intro c hc
  rw [assemble_getLast? h] at hc
  obtain rfl := Option.some.inj hc
  decide

theorem not_occurs_trip_snoc_nl {l : List (List Char × List Char)}
    (hnames : ∀ p ∈ l, '\n' ∉ p.1)
    (htrip : ∀ p ∈ l, ¬ Occurs ['\n', '\n', '\n'] ('\n' :: p.2 ++ ['\n'])) :
    ¬ Occurs ['\n', '\n', '\n'] (assemble l ++ ['\n']) := by
  by_cases hl : l = []
  · subst hl
    intro h
    have := occurs_length_le h
    simp [assemble] at this
  · intro h
    rcases occurs_append_last_notmem (by
        intro d hd
        rw [assemble_getLast? hl] at hd
        obtain rfl := Option.some.inj hd
        intro hm
        exact absurd (nl_mem_of_mem_trip hm) (by decide)) h with h1 | h1
    · exact not_occurs_trip_assemble hnames htrip h1
    · have := occurs_length_le h1
      simp at this

theorem remove_from_assemble {xs ys : List (List Char × List Char)}
    {n cn : List Char}
    (hnames : ∀ p ∈ xs ++ (n, cn) :: ys, '<' ∉ p.1 ∧ '>' ∉ p.1 ∧ '\n' ∉ p.1)
    (hdist : ((xs ++ (n, cn) :: ys).map Prod.fst).Nodup)
    (hclean : ∀ p ∈ xs ++ (n, cn) :: ys, ∀ q ∈ xs ++ (n, cn) :: ys,
      ¬ Occurs (startMarker p.1) q.2 ∧ ¬ Occurs (endMarker p.1) q.2)
    (htrip : ∀ p ∈ xs ++ ys, ¬ Occurs ['\n', '\n', '\n'] ('\n' :: p.2 ++ ['\n'])) :
    remove_global_rule n (assemble (xs ++ (n, cn) :: ys)) =
      (assemble (xs ++ ys) ++ ['\n'], true) := by
  have hmemn : (n, cn) ∈ xs ++ (n, cn) :: ys := by simp
  have hn := hnames (n, cn) hmemn
  have hcn_em : ¬ Occurs (endMarker n) cn := (hclean (n, cn) hmemn (n, cn) hmemn).2
  have hmap : ((xs ++ (n, cn) :: ys).map Prod.fst) =
      xs.map Prod.fst ++ n :: ys.map Prod.fst := by simp
  rw [hmap] at hdist
  obtain ⟨hd1, hd2, hd3⟩ := List.nodup_append.mp hdist
  have hnys : n ∉ ys.map Prod.fst := (List.nodup_cons.mp hd2).1
  have hnxs : n ∉ xs.map Prod.fst := fun hmem => hd3 hmem (List.mem_cons_self n _)
  have hfresh_xs : ¬ Occurs (startMarker n) (assemble xs) :=
    fresh_startMarker_assemble hn (fun p hp => hnames p (List.mem_append_left _ hp))
      (fun p hp => (hclean (n, cn) hmemn p (List.mem_append_left _ hp)).1) hnxs
  have hfresh_ys : ¬ Occurs (startMarker n) (assemble ys) :=
    fresh_startMarker_assemble hn
      (fun p hp => hnames p (List.mem_append_right _ (List.mem_cons_of_mem _ hp)))
      (fun p hp =>
        (hclean (n, cn) hmemn p (List.mem_append_right _ (List.mem_cons_of_mem _ hp))).1)
      hnys
  by_cases hxs : xs = []
  · by_cases hys : ys = []
    · subst hxs
      subst hys
      have hcore := remove_core n cn [] [] hn (not_occurs_nil (startMarker_ne_nil n))
        hcn_em (not_occurs_nil (startMarker_ne_nil n))
      have hdoc : ([] : List Char) ++ newBlock n cn ++ [] = newBlock n cn := by simp
      rw [hdoc] at hcore
      have hsub : subAllAux (startMarker n) (endMarker n) [] true
          (newBlock n cn).length (newBlock n cn) = [] := by
        simpa using hcore.2
      have hrm := remove_global_found hcore.1 hsub
      show remove_global_rule n (newBlock n cn) = (['\n'], true)
      rw [hrm]
      rfl
    · subst hxs
      have hdrop := dropWhile_nlnl_assemble hys
      have hcore := remove_core n cn [] ('\n' :: '\n' :: assemble ys) hn
        (not_occurs_nil (startMarker_ne_nil n)) hcn_em (by rw [hdrop]; exact hfresh_ys)
      have hdoc : ([] : List Char) ++ newBlock n cn ++ ('\n' :: '\n' :: assemble ys) =
          assemble ((n, cn) :: ys) := by
        rw [assemble_cons hys]
        simp
      rw [hdoc] at hcore
      have hsub := hcore.2
      rw [List.nil_append, hdrop] at hsub
      have hrm := remove_global_found hcore.1 hsub
      show remove_global_rule n (assemble ((n, cn) :: ys)) = (assemble ys ++ ['\n'], true)
      rw [hrm]
      rw [pyStrip_eq_self (assemble_head_not_space hys) (assemble_last_not_space hys)]
      rw [collapseNL_eq_self (not_occurs_trip_snoc_nl
        (fun p hp =>
          (hnames p (List.mem_append_right _ (List.mem_cons_of_mem _ hp))).2.2)
        (fun p hp => htrip p (List.mem_append_right _ hp)))]
  · have hpre_sm : ¬ Occurs (startMarker n) (assemble xs ++ ['\n', '\n']) := by
      intro h
      apply hfresh_xs
      apply occurs_append_all_notmem_right (startMarker_ne_nil n) (by
        intro c hc
        have hc2 : c = '\n' := by simpa using hc
        rw [hc2]
        exact nl_not_mem_startMarker hn.2.2) h
    by_cases hys : ys = []
    · subst hys
      have hcore := remove_core n cn (assemble xs ++ ['\n', '\n']) [] hn hpre_sm
        hcn_em (not_occurs_nil (startMarker_ne_nil n))
      have h1 : assemble [(n, cn)] = newBlock n cn := rfl
      have hdoc : (assemble xs ++ ['\n', '\n']) ++ newBlock n cn ++ [] =
          assemble (xs ++ [(n, cn)]) := by
        rw [assemble_append hxs (by simp), h1]
        simp
      rw [hdoc] at hcore
      have hsub := hcore.2
      rw [List.dropWhile_nil, List.append_nil] at hsub
      have hrm := remove_global_found hcore.1 hsub
      rw [List.append_nil]
      rw [hrm]
      rw [pyStrip_append_ws (by
        intro c hc
        have hc2 : c = '\n' := by simpa using hc
        rw [hc2]
        decide) (assemble_head_not_space hxs)]
      rw [pyRStrip_eq_self (assemble_last_not_space hxs)]
      rw [collapseNL_eq_self (not_occurs_trip_snoc_nl
        (fun p hp => (hnames p (List.mem_append_left _ hp)).2.2)
        (fun p hp => htrip p (List.mem_append_left _ hp)))]
    · have hdrop := dropWhile_nlnl_assemble hys
      have hcore := remove_core n cn (assemble xs ++ ['\n', '\n'])
        ('\n' :: '\n' :: assemble ys) hn hpre_sm hcn_em (by rw [hdrop]; exact hfresh_ys)
      have hdoc : (assemble xs ++ ['\n', '\n']) ++ newBlock n cn ++
          ('\n' :: '\n' :: assemble ys) = assemble (xs ++ (n, cn) :: ys) := by
        rw [assemble_append hxs (by simp : ((n, cn) :: ys : List _) ≠ []),
          assemble_cons hys]
        simp
      rw [hdoc] at hcore
      have hsub := hcore.2
      rw [hdrop] at hsub
      have hxy : xs ++ ys ≠ [] := fun h => hxs (List.append_eq_nil.mp h).1
      have hform : (assemble xs ++ ['\n', '\n']) ++ assemble ys = assemble (xs ++ ys) := by
        rw [assemble_append hxs hys]
        simp
      rw [hform] at hsub
      have hrm := remove_global_found hcore.1 hsub
      rw [hrm]
      rw [pyStrip_eq_self (assemble_head_not_space hxy) (assemble_last_not_space hxy)]
      have hsub_mem : ∀ p ∈ xs ++ ys, p ∈ xs ++ (n, cn) :: ys := by
        intro p hp
        rcases List.mem_append.mp hp with h | h
        · exact List.mem_append_left _ h
        · exact List.mem_append_right _ (List.mem_cons_of_mem _ h)
      rw [collapseNL_eq_self (not_occurs_trip_snoc_nl
        (fun p hp => (hnames p (hsub_mem p hp)).2.2)
        (fun p hp => htrip p hp))]

/-- C2: on a document assembled from hygienic blocks with distinct names whose
contents contain no marker occurrences, removing name n deletes n's block and
markers entirely and leaves exactly the other blocks, each present verbatim,
followed by a trailing newline — provided the padded content of every other
block contains no run of three newlines (otherwise the collapse step rewrites
content inside that block, refuting the unconditional claim). -/
theorem remove_preserves_other_blocks (l : List (List Char × List Char))
    (n : List Char)
    (hnames : ∀ p ∈ l, '<' ∉ p.1 ∧ '>' ∉ p.1 ∧ '\n' ∉ p.1)
    (hdist : (l.map Prod.fst).Nodup)
    (hclean : ∀ p ∈ l, ∀ q ∈ l,
      occursB (startMarker p.1) q.2 = false ∧ occursB (endMarker p.1) q.2 = false)
    (htrip : ∀ p ∈ l, p.1 ≠ n →
      occursB ['\n', '\n', '\n'] ('\n' :: p.2 ++ ['\n']) = false)
    (hmem : n ∈ l.map Prod.fst) :
    (remove_global_rule n (assemble l)).2 = true ∧
    (remove_global_rule n (assemble l)).1 =
      assemble (l.filter fun p => decide (p.1 ≠ n)) ++ ['\n'] ∧
    occursB (startMarker n) (remove_global_rule n (assemble l)).1 = false ∧
    occursB (endMarker n) (remove_global_rule n (assemble l)).1 = false ∧
    ∀ p ∈ l, p.1 ≠ n →
      occursB (newBlock p.1 p.2) (remove_global_rule n (assemble l)).1 = true := by
  obtain ⟨p0, hp0, hp01⟩ := List.mem_map.mp hmem
  obtain ⟨xs, ys, hl⟩ := List.append_of_mem hp0
  obtain ⟨n1, cn⟩ := p0
  have hn1 : n1 = n := hp01
  subst n1
  subst hl
  have hmemn : (n, cn) ∈ xs ++ (n, cn) :: ys := by simp
  have hn := hnames (n, cn) hmemn
  have hcleanP : ∀ p ∈ xs ++ (n, cn) :: ys, ∀ q ∈ xs ++ (n, cn) :: ys,
      ¬ Occurs (startMarker p.1) q.2 ∧ ¬ Occurs (endMarker p.1) q.2 := by
    intro p hp q hq
    exact ⟨occursB_false_iff.mp (hclean p hp q hq).1,
      occursB_false_iff.mp (hclean p hp q hq).2⟩
  have hmap2 : ((xs ++ (n, cn) :: ys).map Prod.fst) =
      xs.map Prod.fst ++ n :: ys.map Prod.fst := by simp
  have hdist2 := hdist
  rw [hmap2] at hdist2
  obtain ⟨hd1, hd2, hd3⟩ := List.nodup_append.mp hdist2
  have hnys : n ∉ ys.map Prod.fst := (List.nodup_cons.mp hd2).1
  have hnxs : n ∉ xs.map Prod.fst := fun hm => hd3 hm (List.mem_cons_self n _)
  have hmem_of : ∀ p ∈ xs ++ ys, p ∈ xs ++ (n, cn) :: ys := by
    intro p hp
    rcases List.mem_append.mp hp with h | h
    · exact List.mem_append_left _ h
    · exact List.mem_append_right _ (List.mem_cons_of_mem _ h)
  have hne_of_mem : ∀ p ∈ xs ++ ys, p.1 ≠ n := by
    intro p hp hpn
    rcases List.mem_append.mp hp with h | h
    · exact hnxs (hpn ▸ List.mem_map_of_mem Prod.fst h)
    · exact hnys (hpn ▸ List.mem_map_of_mem Prod.fst h)
  have htripP : ∀ p ∈ xs ++ ys, ¬ Occurs ['\n', '\n', '\n'] ('\n' :: p.2 ++ ['\n']) :=
    fun p hp => occursB_false_iff.mp (htrip p (hmem_of p hp) (hne_of_mem p hp))
  have hres := remove_from_assemble hnames hdist hcleanP htripP
  have hfilter : ((xs ++ (n, cn) :: ys).filter fun p => decide (p.1 ≠ n)) = xs ++ ys := by
    rw [List.filter_append, List.filter_cons]
    rw [if_neg (by simp)]
    rw [List.filter_eq_self.mpr
      (fun p hp => by simpa using hne_of_mem p (List.mem_append_left _ hp))]
    rw [List.filter_eq_self.mpr
      (fun p hp => by simpa using hne_of_mem p (List.mem_append_right _ hp))]
  have hnotin_xy : n ∉ (xs ++ ys).map Prod.fst := by
    rw [List.map_append]
    intro hm
    rcases List.mem_append.mp hm with h | h
    · exact hnxs h
    · exact hnys h
  refine ⟨by rw [hres], by rw [hres, hfilter], ?_, ?_, ?_⟩
  · rw [hres]
    apply occursB_false_iff.mpr
    intro h
    apply fresh_startMarker_assemble hn (fun p hp => hnames p (hmem_of p hp))
      (fun p hp => (hcleanP (n, cn) hmemn p (hmem_of p hp)).1) hnotin_xy
    exact occurs_append_all_notmem_right (startMarker_ne_nil n) (by
      intro c hc
      have hc2 : c = '\n' := by simpa using hc
      rw [hc2]
      exact nl_not_mem_startMarker hn.2.2) h
  · rw [hres]
    apply occursB_false_iff.mpr
    intro h
    apply fresh_endMarker_assemble hn (fun p hp => hnames p (hmem_of p hp))
      (fun p hp => (hcleanP (n, cn) hmemn p (hmem_of p hp)).2) hnotin_xy
    exact occurs_append_all_notmem_right (endMarker_ne_nil n) (by
      intro c hc
      have hc2 : c = '\n' := by simpa using hc
      rw [hc2]
      exact nl_not_mem_endMarker hn.2.2) h
  · intro p hp hpne
    rw [hres]
    apply occursB_iff.mpr
    apply occurs_append_right_intro
    apply occurs_block_in_assemble
    rcases List.mem_append.mp hp with h | h
    · exact List.mem_append_left _ h
    · rcases List.mem_cons.mp h with h2 | h2
      · exact absurd (by rw [h2]) hpne
      · exact List.mem_append_right _ h2

/-- Witness for C2 on a concrete two-block document: removing x leaves y's
block verbatim and no x markers. -/
theorem remove_preserves_other_blocks_witness :
    (remove_global_rule "x".data
        (assemble [("x".data, "a".data), ("y".data, "b".data)])).2 = true ∧
    (remove_global_rule "x".data
        (assemble [("x".data, "a".data), ("y".data, "b".data)])).1 =
      assemble ([("x".data, "a".data), ("y".data, "b".data)].filter
        fun p => decide (p.1 ≠ "x".data)) ++ ['\n'] ∧
    occursB (startMarker "x".data)
      (remove_global_rule "x".data
        (assemble [("x".data, "a".data), ("y".data, "b".data)])).1 = false ∧
    occursB (endMarker "x".data)
      (remove_global_rule "x".data
        (assemble [("x".data, "a".data), ("y".data, "b".data)])).1 = false ∧
    ∀ p ∈ [("x".data, "a".data), ("y".data, "b".data)], p.1 ≠ "x".data →
      occursB (newBlock p.1 p.2)
        (remove_global_rule "x".data
          (assemble [("x".data, "a".data), ("y".data, "b".data)])).1 = true :=
  remove_preserves_other_blocks [("x".data, "a".data), ("y".data, "b".data)]
    "x".data (by decide) (by decide) (by decide) (by decide) (by decide)

/-- Counterexample to C2 as stated: build blocks x and y where y's content
holds a run of three newlines; removing x collapses that run inside y's
block, so y's enclosed content is not byte-for-byte unchanged. -/
theorem remove_alters_other_block :
    occursB (newBlock "y".data "b\n\n\nc".data)
      ((update_global_rule "y".data "b\n\n\nc".data
        ((update_global_rule "x".data "a".data []).getD [])).getD []) = true ∧
    occursB (newBlock "y".data "b\n\n\nc".data)
      ((remove_global_rule "x".data
        ((update_global_rule "y".data "b\n\n\nc".data
          ((update_global_rule "x".data "a".data []).getD [])).getD [])).1) = false := by
  decide
